import Mathlib

/-!
# Verification of the zcode change-application pipeline

A shallow embedding of zcode's core: the diff/hunk pipeline
(`src/diff.rs`), the reconstructor (`src/file_ops/reconstruct.rs`), the
transactional apply orchestrator (`src/file_ops/apply.rs`,
`src/file_ops/backup.rs`), the subprocess executor (`src/executor.rs`)
and the task-completion handler of the application state machine
(`src/app.rs`).

Rust strings become Lean `String`s, vectors become `List`s, `HashMap`s
become association lists, and the filesystem together with its failure
modes becomes an explicit state that every file operation threads
through.  Fallible Rust functions (`anyhow::Result`) return `Except`
over a structured error type.
-/

namespace ZCode

/-! ## Data model (`src/state.rs`) -/

/-- `ChangeTag` from `src/state.rs`. -/
inductive ChangeTag where
  | Equal
  | Insert
  | Delete
  deriving DecidableEq, Repr

/-- `HunkStatus` from `src/state.rs`. -/
inductive HunkStatus where
  | Pending
  | Accepted
  | Rejected
  deriving DecidableEq, Repr

/-- `LineChange` from `src/state.rs`.  `old_line_num` / `new_line_num`
hold the indices that `extract_hunks` copies out of the diff
(`similar`'s `old_index()` / `new_index()`, which are 0-based). -/
structure LineChange where
  tag : ChangeTag
  content : String
  old_line_num : Option Nat
  new_line_num : Option Nat
  deriving DecidableEq, Repr

/-- `Hunk` from `src/state.rs`.  `PathBuf` is modelled as `String`. -/
structure Hunk where
  id : Nat
  file_path : String
  start_line : Nat
  end_line : Nat
  changes : List LineChange
  status : HunkStatus
  deriving DecidableEq, Repr

/-- `ChangeType` from `src/state.rs`. -/
inductive ChangeType where
  | Create
  | Modify
  | Delete
  deriving DecidableEq, Repr

/-- `FileChange` from `src/state.rs`. -/
structure FileChange where
  path : String
  original_content : Option String
  proposed_content : String
  change_type : ChangeType
  deriving DecidableEq, Repr

/-! ## Line splitting

Two distinct notions of "lines" appear in the source and both matter:

* Rust's `str::lines()` (used by `reconstruct_file_content`): splits on
  `\n`, swallows a final empty piece produced by a trailing newline and
  strips one trailing `\r` from each line.
* the `similar` crate's line tokenizer (used by `generate_diff` /
  `TextDiff::diff_lines`): splits *after* each `\n`, so every token
  except possibly the last retains its terminating newline.
-/

/-- Strip one trailing carriage return from a char list, as Rust's
`str::lines` does for each produced line. -/
def stripTrailingCR (l : List Char) : List Char :=
  match l.getLast? with
  | some c => if c = '\r' then l.dropLast else l
  | none => l

/-- Split a char list at a separator (the separators are dropped). -/
def splitChar (sep : Char) : List Char → List Char → List (List Char)
  | [], acc => [acc.reverse]
  | c :: cs, acc =>
    if c = sep then acc.reverse :: splitChar sep cs []
    else splitChar sep cs (c :: acc)

/-- Rust `str::lines()`: split on `\n`; each newline-terminated line
loses one `\r` before its `\n` (the `\r` is stripped only after a `\n`
was), the empty piece a trailing newline produces is dropped, and a
final unterminated line — including a bare trailing `\r` — is kept
verbatim. -/
def rustLines (s : String) : List String :=
  if s = "" then []
  else
    let pieces := splitChar '\n' s.toList []
    let terminated := pieces.dropLast.map stripTrailingCR
    let tail := pieces.getLast?.getD []
    (if tail = [] then terminated else terminated ++ [tail]).map String.mk

/-- The `similar` crate's line tokenizer: split after each `\n`, each
token keeps its newline; a final token with no newline is kept as is.
Modelled from `similar`'s documented `diff_lines` tokenization, since
that crate is an external dependency of the repository. -/
def splitTokens' : List Char → List Char → List (List Char)
  | [], acc => if acc = [] then [] else [acc.reverse]
  | c :: cs, acc =>
    if c = '\n' then (acc.reverse ++ ['\n']) :: splitTokens' cs []
    else splitTokens' cs (c :: acc)

/-- Tokenize a text into newline-terminated line tokens. -/
def splitTokens (s : String) : List String :=
  (splitTokens' s.toList []).map String.mk

/-! ## The diff engine (`src/diff.rs` + the `similar` crate)

`generate_diff` delegates to `similar::TextDiff` (Patience algorithm,
5-second timeout).  The crate is external, so its behaviour is modelled:
a deterministic longest-common-subsequence line diff emitting, for every
line, a change record with tag, content and the 0-based `old_index` /
`new_index` exactly as `similar`'s `iter_changes` reports them
(deletions before insertions inside a replaced region, equal lines
carrying both indices).  On line sequences whose common lines are
unique — every concrete input used below — Patience and plain LCS agree.
-/

/-- Length of a longest common subsequence, structurally recursive on a
fuel bound (the recursion removes one element of either list per step,
so `o.length + n.length` fuel is exact). -/
def lcsLenF : Nat → List String → List String → Nat
  | 0, _, _ => 0
  | _ + 1, [], _ => 0
  | _ + 1, _ :: _, [] => 0
  | fuel + 1, a :: as, b :: bs =>
    if a = b then lcsLenF fuel as bs + 1
    else max (lcsLenF fuel as (b :: bs)) (lcsLenF fuel (a :: as) bs)

/-- Length of a longest common subsequence, used to pick the same branch
a maximal-matching line diff picks. -/
def lcsLen (o n : List String) : Nat :=
  lcsLenF (o.length + n.length) o n

/-- The change stream of the diff, structurally recursive on a fuel
bound; `diffChanges` supplies exact fuel. -/
def diffChangesF : Nat → List String → List String → Nat → Nat → List LineChange
  | 0, _, _, _, _ => []
  | _ + 1, [], [], _, _ => []
  | fuel + 1, [], b :: bs, i, j =>
    ⟨ChangeTag.Insert, b, none, some j⟩ :: diffChangesF fuel [] bs i (j + 1)
  | fuel + 1, a :: as, [], i, j =>
    ⟨ChangeTag.Delete, a, some i, none⟩ :: diffChangesF fuel as [] (i + 1) j
  | fuel + 1, a :: as, b :: bs, i, j =>
    if a = b then
      ⟨ChangeTag.Equal, a, some i, some j⟩ :: diffChangesF fuel as bs (i + 1) (j + 1)
    else if lcsLen (a :: as) bs ≤ lcsLen as (b :: bs) then
      ⟨ChangeTag.Delete, a, some i, none⟩ :: diffChangesF fuel as (b :: bs) (i + 1) j
    else
      ⟨ChangeTag.Insert, b, none, some j⟩ :: diffChangesF fuel (a :: as) bs i (j + 1)

/-- The flat change stream of the diff: tags with 0-based old/new
indices, deletions emitted before insertions, equal heads taken
greedily (which every LCS-maximal line diff does). -/
def diffChanges (o n : List String) (i j : Nat) : List LineChange :=
  diffChangesF (o.length + n.length) o n i j

/-- `generate_diff` (`src/diff.rs`): the diff of two texts, as the flat
stream of line changes `iter_changes` would yield over all ops. -/
def generate_diff (original proposed : String) : List LineChange :=
  diffChanges (splitTokens original) (splitTokens proposed) 0 0

/-- Is this change an `Equal` op element? -/
def isEqualChange (c : LineChange) : Bool :=
  c.tag = ChangeTag.Equal

/-- Maximal runs of the change stream, each labelled with whether it is
a run of `Equal` changes.  Runs correspond to `similar`'s `DiffOp`s:
an `Equal` run is an `Equal` op, a non-equal run covers the
`Delete`/`Insert`/`Replace` ops between two equal regions. -/
def toRuns : List LineChange → List (Bool × List LineChange)
  | [] => []
  | c :: cs =>
    match toRuns cs with
    | [] => [(isEqualChange c, [c])]
    | (b, run) :: rest =>
      if b = isEqualChange c then (b, c :: run) :: rest
      else (isEqualChange c, [c]) :: (b, run) :: rest

/-- Trim a leading equal run to its last `n` elements, as
`similar`'s `group_diff_ops` trims the first `Equal` op. -/
def trimFirstRun (n : Nat) : List (Bool × List LineChange) → List (Bool × List LineChange)
  | (true, run) :: rest => (true, run.drop (run.length - n)) :: rest
  | rs => rs

/-- Trim a trailing equal run to its first `n` elements. -/
def trimLastRun (n : Nat) : List (Bool × List LineChange) → List (Bool × List LineChange)
  | [] => []
  | [(true, run)] => [(true, run.take n)]
  | [r] => [r]
  | r :: rs => r :: trimLastRun n rs

/-- Concatenate the changes of a list of runs. -/
def flattenRuns (rs : List (Bool × List LineChange)) : List LineChange :=
  rs.foldr (fun r acc => r.2 ++ acc) []

/-- The grouping loop of `similar`'s `group_diff_ops`: an equal run
longer than `2*n` closes the pending group (keeping `n` context lines on
each side); a final group that is empty or pure context is dropped. -/
def groupLoop (n : Nat) :
    List (Bool × List LineChange) → List (Bool × List LineChange) →
    List (List LineChange) → List (List LineChange)
  | [], pending, rv =>
    match pending with
    | [] => rv
    | [(true, _)] => rv
    | _ => rv ++ [flattenRuns pending]
  | (true, run) :: rest, pending, rv =>
    if 2 * n < run.length then
      match pending with
      | [] => groupLoop n rest [(true, run.drop (run.length - n))] rv
      | _ =>
        groupLoop n rest [(true, run.drop (run.length - n))]
          (rv ++ [flattenRuns (pending ++ [(true, run.take n)])])
    else groupLoop n rest (pending ++ [(true, run)]) rv
  | (false, run) :: rest, pending, rv =>
    groupLoop n rest (pending ++ [(false, run)]) rv

/-- `grouped_ops(n)` of the `similar` crate, flattened to change lists:
each group is the change stream `extract_hunks` iterates for one hunk. -/
def groupedOps (changes : List LineChange) (n : Nat) : List (List LineChange) :=
  match toRuns changes with
  | [] => []
  | runs => groupLoop n (trimLastRun n (trimFirstRun n runs)) [] []

/-- The `start_line` fold of `extract_hunks`: every change whose
`old_index` is present overwrites the accumulator (initially 0). -/
def foldOldLine (changes : List LineChange) : Nat :=
  changes.foldl (fun acc c => match c.old_line_num with | some i => i | none => acc) 0

/-- The `end_line` fold of `extract_hunks`: every change whose
`new_index` is present overwrites the accumulator (initially 0). -/
def foldNewLine (changes : List LineChange) : Nat :=
  changes.foldl (fun acc c => match c.new_line_num with | some i => i | none => acc) 0

/-- `extract_hunks` (`src/diff.rs`): one hunk per grouped-op range,
`id` the enumeration index of the group, `start_line`/`end_line` the
final values of the per-change folds, status `Pending`; empty groups
are skipped. -/
def extract_hunks (file_path : String) (diff : List LineChange) : List Hunk :=
  ((groupedOps diff 3).enum.foldl
    (fun acc p =>
      if p.2.isEmpty then acc
      else acc ++ [{ id := p.1, file_path := file_path,
                     start_line := foldOldLine p.2, end_line := foldNewLine p.2,
                     changes := p.2, status := HunkStatus.Pending }])
    [])

/-! ## The reconstructor (`src/file_ops/reconstruct.rs`)

`reconstruct_file_content` and `apply_hunk` never construct an error
(`apply_hunk` always returns `Ok(())`), so both are embedded as total
functions returning the new content directly. -/

/-- The deletion phase of `apply_hunk`: remove line `old_line_num - 1`
for each recorded deletion, iterating the deletion list in reverse;
out-of-range or zero line numbers are skipped. -/
def applyDeletions (lines : List String) (deletions : List Nat) : List String :=
  deletions.reverse.foldl
    (fun ls o => if 0 < o ∧ o ≤ ls.length then ls.eraseIdx (o - 1) else ls)
    lines

/-- The insertion phase of `apply_hunk`: compute the insert position
from `start_line` (append at the end when `start_line = 0` and the
lines are non-empty), clamp it, then insert the contents one by one. -/
def applyInsertions (lines : List String) (start_line : Nat)
    (insertions : List String) : List String :=
  let insert_pos := if 0 < start_line then start_line - 1
    else if lines.isEmpty then 0 else lines.length
  let insert_pos := min insert_pos lines.length
  insertions.enum.foldl (fun ls p => ls.insertIdx (insert_pos + p.1) p.2) lines

/-- `apply_hunk` (`src/file_ops/reconstruct.rs`): separate the hunk's
changes into insertion contents and deletion line numbers
(`old_line_num.unwrap_or(0)`), apply deletions bottom-up, then insert
at the hunk's start line. -/
def apply_hunk (lines : List String) (hunk : Hunk) : List String :=
  let insertions := hunk.changes.filterMap
    (fun c => if c.tag = ChangeTag.Insert then some c.content else none)
  let deletions := hunk.changes.filterMap
    (fun c => if c.tag = ChangeTag.Delete then some (c.old_line_num.getD 0) else none)
  applyInsertions (applyDeletions lines deletions) hunk.start_line insertions

/-- Stable descending insertion by `start_line`, modelling the stable
`sort_by(|a, b| b.start_line.cmp(&a.start_line))`. -/
def insertByStartDesc (h : Hunk) : List Hunk → List Hunk
  | [] => [h]
  | x :: xs =>
    if h.start_line ≤ x.start_line then x :: insertByStartDesc h xs
    else h :: x :: xs

/-- Stable sort of hunks by `start_line`, descending. -/
def sortByStartDesc (hs : List Hunk) : List Hunk :=
  hs.foldr insertByStartDesc []

/-- `reconstruct_file_content` (`src/file_ops/reconstruct.rs`): return
the original verbatim for an empty hunk list; otherwise split into
lines, apply the `Accepted` hunks bottom-up, and re-join with `\n`. -/
def reconstruct_file_content (original : String) (hunks : List Hunk) : String :=
  if hunks.isEmpty then original
  else
    let lines := rustLines original
    let accepted := hunks.filter (fun h => h.status = HunkStatus.Accepted)
    let accepted := sortByStartDesc accepted
    let lines := accepted.foldl apply_hunk lines
    String.intercalate "\n" lines

/-! ## Filesystem model

`apply_accepted_hunks` and `BackupSet` perform file I/O.  The
filesystem is modelled as an association list of path → content plus a
fault schedule for `atomic_write` (the writer either replaces the
target or fails leaving it untouched, which is exactly its contract)
and a ghost event log recording every attempted operation.  Reads fail
on missing files; writes fail when the schedule says so. -/

/-- One attempted filesystem operation (ghost log entry). -/
inductive FsEvent where
  | read (path : String)
  | write (path : String)
  | createDir (path : String)
  deriving DecidableEq, Repr

/-- The filesystem state threaded through every file operation. -/
structure FS where
  files : List (String × String)
  writeFaults : List Bool
  events : List FsEvent
  deriving DecidableEq, Repr

/-- Association-list lookup (`HashMap::get`). -/
def lookupPairs {α : Type} : List (String × α) → String → Option α
  | [], _ => none
  | e :: rest, p => if e.1 = p then some e.2 else lookupPairs rest p

/-- Association-list lookup of a file's content. -/
def lookupFile (fs : FS) (p : String) : Option String :=
  lookupPairs fs.files p

/-- Association-list update (insert or replace). -/
def setFile (files : List (String × String)) (p c : String) : List (String × String) :=
  match files with
  | [] => [(p, c)]
  | e :: rest => if e.1 = p then (p, c) :: rest else e :: setFile rest p c

/-- Structured model of the `anyhow` error values the apply pipeline
builds: a base message, a `.context(...)` wrapper, and the aggregated
restore error of `BackupSet::restore_all` (which formats the failed
paths into its message). -/
inductive AppError where
  | msg (s : String)
  | context (ctx : String) (cause : AppError)
  | restoreFailed (failures : List (String × AppError))
  deriving Repr

/-- The paths a returned error reports as failed-to-restore: the
entries of a `restoreFailed` node, looked for through `context`
wrappers.  An error with none contains no restore-failure report. -/
def restoreReported : AppError → List String
  | AppError.msg _ => []
  | AppError.context _ cause => restoreReported cause
  | AppError.restoreFailed failures => failures.map Prod.fst

/-- `fs::read_to_string`: look the path up; missing files fail. -/
def read_to_string (p : String) (fs : FS) : Except AppError String × FS :=
  match lookupFile fs p with
  | some c => (Except.ok c, { fs with events := fs.events ++ [FsEvent.read p] })
  | none =>
    (Except.error (AppError.msg ("No such file: " ++ p)),
     { fs with events := fs.events ++ [FsEvent.read p] })

/-- `atomic_write` (`src/file_ops/atomic.rs` contract): either the
target holds exactly the new content afterwards, or the write fails
and the target is untouched.  The fault schedule decides which. -/
def atomic_write (p c : String) (fs : FS) : Except AppError Unit × FS :=
  match fs.writeFaults with
  | [] =>
    (Except.ok (), { fs with files := setFile fs.files p c,
                             events := fs.events ++ [FsEvent.write p] })
  | b :: rest =>
    if b then
      (Except.error (AppError.msg ("atomic write failed: " ++ p)),
       { fs with writeFaults := rest, events := fs.events ++ [FsEvent.write p] })
    else
      (Except.ok (), { files := setFile fs.files p c, writeFaults := rest,
                       events := fs.events ++ [FsEvent.write p] })

/-! ## Backup set (`src/file_ops/backup.rs`) -/

/-- The backup directory, `dirs::cache_dir()/zcode/backups` with the
cache directory abstracted to a constant. -/
def backupDir : String := "cache/zcode/backups"

/-- Rust `Path::file_name()` with the `unwrap_or("unknown")` of
`BackupSet::backup_path`: the last `/`-separated component. -/
def fileName (p : String) : String :=
  match (splitChar '/' p.toList []).getLast? with
  | some base => if base = [] then "unknown" else String.mk base
  | none => "unknown"

/-- `BackupSet::backup_path`: `<backup_dir>/<timestamp>_<basename>`. -/
def backupPathFor (timestamp p : String) : String :=
  backupDir ++ "/" ++ timestamp ++ "_" ++ fileName p

/-- `BackupSet` from `src/file_ops/backup.rs`; the `HashMap` becomes an
association list in insertion order. -/
structure BackupSet where
  backups : List (String × String)
  timestamp : String
  deriving DecidableEq, Repr

/-- The loop of `BackupSet::create`: read each file, ensure the backup
directory, write the content to the backup path; fail fast on the
first error. -/
def backupCreateLoop (ts : String) :
    List String → List (String × String) → FS →
    Except AppError (List (String × String)) × FS
  | [], acc, fs => (Except.ok acc, fs)
  | p :: rest, acc, fs =>
    match read_to_string p fs with
    | (Except.error e, fs) =>
      (Except.error (AppError.context ("Failed to read file for backup: " ++ p) e), fs)
    | (Except.ok content, fs) =>
      match atomic_write (backupPathFor ts p) content
          { fs with events := fs.events ++ [FsEvent.createDir backupDir] } with
      | (Except.error e, fs) => (Except.error e, fs)
      | (Except.ok _, fs) => backupCreateLoop ts rest (acc ++ [(p, backupPathFor ts p)]) fs

/-- `BackupSet::create`: the timestamp (`chrono::Utc::now`) enters as a
parameter. -/
def BackupSet.create (files : List String) (ts : String) (fs : FS) :
    Except AppError BackupSet × FS :=
  match backupCreateLoop ts files [] fs with
  | (Except.error e, fs) => (Except.error e, fs)
  | (Except.ok backups, fs) => (Except.ok ⟨backups, ts⟩, fs)

/-- `BackupSet::restore_single`: read the backup, write it back through
the atomic writer. -/
def restore_single (original_path backup_path : String) (fs : FS) :
    Except AppError Unit × FS :=
  match read_to_string backup_path fs with
  | (Except.error e, fs) =>
    (Except.error (AppError.context ("Failed to read backup: " ++ backup_path) e), fs)
  | (Except.ok content, fs) =>
    match atomic_write original_path content fs with
    | (Except.error e, fs) =>
      (Except.error (AppError.context ("Failed to restore: " ++ original_path) e), fs)
    | (Except.ok _, fs) => (Except.ok (), fs)

/-- The error-collecting loop of `BackupSet::restore_all`. -/
def restoreLoop :
    List (String × String) → List (String × AppError) → FS →
    List (String × AppError) × FS
  | [], errs, fs => (errs, fs)
  | (op, bp) :: rest, errs, fs =>
    match restore_single op bp fs with
    | (Except.ok _, fs) => restoreLoop rest errs fs
    | (Except.error e, fs) => restoreLoop rest (errs ++ [(op, e)]) fs

/-- `BackupSet::restore_all`: best-effort, aggregating failures. -/
def BackupSet.restore_all (bs : BackupSet) (fs : FS) : Except AppError Unit × FS :=
  match restoreLoop bs.backups [] fs with
  | ([], fs) => (Except.ok (), fs)
  | (errs, fs) => (Except.error (AppError.restoreFailed errs), fs)

/-- `BackupSet::backup_paths`. -/
def BackupSet.backup_paths (bs : BackupSet) : List String :=
  bs.backups.map Prod.snd

/-! ## Apply orchestrator (`src/file_ops/apply.rs`) -/

/-- The configuration slice the orchestrator reads
(`config.general.create_backups`; the other options play no role
here). -/
structure Config where
  create_backups : Bool
  deriving DecidableEq, Repr

/-- `ApplyResult` from `src/file_ops/apply.rs`. -/
structure ApplyResult where
  files_modified : List String
  backups_created : List String
  hunks_applied : Nat
  deriving DecidableEq, Repr

/-- `HashMap::get` on the pending-changes map. -/
def lookupAssoc (m : List (String × FileChange)) (p : String) : Option FileChange :=
  lookupPairs m p

/-- Lexicographic strict order on char lists — the order `BTreeMap`
keys its `PathBuf`s by (byte order and scalar-value order agree). -/
def charsLt : List Char → List Char → Bool
  | [], [] => false
  | [], _ :: _ => true
  | _ :: _, [] => false
  | a :: as, b :: bs =>
    if a < b then true
    else if b < a then false
    else charsLt as bs

/-- Lexicographic strict order on paths. -/
def pathLt (p q : String) : Bool :=
  charsLt p.toList q.toList

/-- Sorted insertion of a path, keeping the list strictly sorted and
duplicate-free — the key set of the `BTreeMap` the orchestrator groups
hunks into. -/
def insertPathSorted (p : String) : List String → List String
  | [] => [p]
  | q :: qs =>
    if p = q then q :: qs
    else if pathLt p q then p :: q :: qs
    else q :: insertPathSorted p qs

/-- The distinct file paths of a hunk list, in sorted order
(`BTreeMap` key order). -/
def sortedPaths (hs : List Hunk) : List String :=
  hs.foldl (fun acc h => insertPathSorted h.file_path acc) []

/-- `BTreeMap<PathBuf, Vec<&Hunk>>` built by pushing each accepted hunk
onto its path's entry: keys sorted, each value in input order. -/
def hunks_by_file (hs : List Hunk) : List (String × List Hunk) :=
  (sortedPaths hs).map (fun p => (p, hs.filter (fun h => h.file_path = p)))

/-- The loop of `apply_all_files`: reconstruct each file (from empty
content for `Create` changes, otherwise from the current on-disk
content) and write it atomically; fail fast.
`reconstruct_file_content` never fails, so its error context in the
source is dead code. -/
def applyAllFilesLoop (pending : List (String × FileChange)) :
    List (String × List Hunk) → List String → FS →
    Except AppError (List String) × FS
  | [], acc, fs => (Except.ok acc, fs)
  | (p, hs) :: rest, acc, fs =>
    match (if hs.any (fun _ =>
        ((lookupAssoc pending p).map (fun c => c.change_type == ChangeType.Create)).getD false)
      then (Except.ok (reconstruct_file_content "" hs), fs)
      else
        match read_to_string p fs with
        | (Except.error e, fs) =>
          (Except.error (AppError.context ("Failed to read file: " ++ p) e), fs)
        | (Except.ok original, fs) =>
          (Except.ok (reconstruct_file_content original hs), fs) : Except AppError String × FS) with
    | (Except.error e, fs) => (Except.error e, fs)
    | (Except.ok new_content, fs) =>
      match atomic_write p new_content fs with
      | (Except.error e, fs) =>
        (Except.error (AppError.context ("Failed to write file: " ++ p) e), fs)
      | (Except.ok _, fs) => applyAllFilesLoop pending rest (acc ++ [p]) fs

/-- `apply_all_files` from `src/file_ops/apply.rs`. -/
def apply_all_files (hunksByFile : List (String × List Hunk))
    (pending : List (String × FileChange)) (fs : FS) :
    Except AppError (List String) × FS :=
  applyAllFilesLoop pending hunksByFile [] fs

/-- `apply_accepted_hunks` from `src/file_ops/apply.rs`: filter to the
accepted hunks (failing with `NoAcceptedHunks` when none), group by
file, optionally create a backup set, apply all files, and on failure
run a best-effort `restore_all` *whose result is discarded*
(`let _ = backup_set.restore_all();`) before returning the original
apply error. -/
def apply_accepted_hunks (hunks : List Hunk) (pending : List (String × FileChange))
    (config : Config) (ts : String) (fs : FS) : Except AppError ApplyResult × FS :=
  let accepted := hunks.filter (fun h => h.status = HunkStatus.Accepted)
  if accepted.isEmpty then (Except.error (AppError.msg "No accepted hunks to apply"), fs)
  else
    let hunksByFile := hunks_by_file accepted
    let files_to_modify := hunksByFile.map Prod.fst
    let created : Except AppError BackupSet × FS :=
      if config.create_backups then
        match BackupSet.create files_to_modify ts fs with
        | (Except.error e, fs) =>
          (Except.error (AppError.context "Failed to create backups" e), fs)
        | (Except.ok bs, fs) => (Except.ok bs, fs)
      else (Except.ok ⟨[], ""⟩, fs)
    match created with
    | (Except.error e, fs) => (Except.error e, fs)
    | (Except.ok backup_set, fs) =>
      let backups_created := backup_set.backup_paths
      match apply_all_files hunksByFile pending fs with
      | (Except.ok files_modified, fs) =>
        (Except.ok ⟨files_modified, backups_created, accepted.length⟩, fs)
      | (Except.error e, fs) =>
        let fs := if config.create_backups then (backup_set.restore_all fs).2 else fs
        (Except.error (AppError.context "Failed to apply hunks" e), fs)

/-! ## Lemmas about the path order and sorted insertion -/

/-- `charsLt` is irreflexive. -/
theorem charsLt_irrefl : ∀ l : List Char, charsLt l l = false := by
  intro l
  induction l with
  | nil => rfl
  | cons a as ih => simp [charsLt, lt_irrefl, ih]

/-- `pathLt` is irreflexive. -/
theorem pathLt_irrefl (p : String) : pathLt p p = false :=
  charsLt_irrefl p.toList

/-- Eliminate one comparison step of `charsLt`. -/
theorem charsLt_cons_elim (x y : Char) (xs ys : List Char)
    (h : (if x < y then true else if y < x then false else charsLt xs ys) = true) :
    x < y ∨ (x = y ∧ charsLt xs ys = true) := by
  by_cases hxy : x < y
  · exact Or.inl hxy
  · rw [if_neg hxy] at h
    by_cases hyx : y < x
    · rw [if_pos hyx] at h
      exact absurd h (by simp)
    · rw [if_neg hyx] at h
      exact Or.inr ⟨le_antisymm (not_lt.mp hyx) (not_lt.mp hxy), h⟩

/-- `charsLt` is transitive. -/
theorem charsLt_trans : ∀ a b c : List Char,
    charsLt a b = true → charsLt b c = true → charsLt a c = true := by
  intro a
  induction a with
  | nil =>
    intro b c hab hbc
    cases b with
    | nil => simp [charsLt] at hab
    | cons b₀ bs =>
      cases c with
      | nil => simp [charsLt] at hbc
      | cons c₀ cs => simp [charsLt]
  | cons a₀ as ih =>
    intro b c hab hbc
    cases b with
    | nil => simp [charsLt] at hab
    | cons b₀ bs =>
      cases c with
      | nil => simp [charsLt] at hbc
      | cons c₀ cs =>
        simp only [charsLt] at hab hbc ⊢
        rcases charsLt_cons_elim _ _ _ _ hab with h1 | ⟨rfl, h1⟩
        · rcases charsLt_cons_elim _ _ _ _ hbc with h2 | ⟨rfl, h2⟩
          · rw [if_pos (lt_trans h1 h2)]
          · rw [if_pos h1]
        · rcases charsLt_cons_elim _ _ _ _ hbc with h2 | ⟨rfl, h2⟩
          · rw [if_pos h2]
          · rw [if_neg (lt_irrefl a₀), if_neg (lt_irrefl a₀)]
            exact ih bs cs h1 h2

/-- `charsLt` is total on distinct lists. -/
theorem charsLt_total : ∀ a b : List Char,
    a = b ∨ charsLt a b = true ∨ charsLt b a = true := by
  intro a
  induction a with
  | nil =>
    intro b
    cases b with
    | nil => exact Or.inl rfl
    | cons b₀ bs => exact Or.inr (Or.inl (by simp [charsLt]))
  | cons a₀ as ih =>
    intro b
    cases b with
    | nil => exact Or.inr (Or.inr (by simp [charsLt]))
    | cons b₀ bs =>
      by_cases hab : a₀ < b₀
      · exact Or.inr (Or.inl (by simp [charsLt, hab]))
      · by_cases hba : b₀ < a₀
        · exact Or.inr (Or.inr (by simp [charsLt, hba]))
        · have heq : a₀ = b₀ := le_antisymm (not_lt.mp hba) (not_lt.mp hab)
          subst heq
          rcases ih bs with rfl | h | h
          · exact Or.inl rfl
          · exact Or.inr (Or.inl (by simp [charsLt, lt_irrefl, h]))
          · exact Or.inr (Or.inr (by simp [charsLt, lt_irrefl, h]))

/-- `pathLt` is transitive. -/
theorem pathLt_trans {a b c : String} (h₁ : pathLt a b = true) (h₂ : pathLt b c = true) :
    pathLt a c = true :=
  charsLt_trans a.toList b.toList c.toList h₁ h₂

/-- `pathLt` is total on distinct strings. -/
theorem pathLt_total (a b : String) : a = b ∨ pathLt a b = true ∨ pathLt b a = true := by
  rcases charsLt_total a.toList b.toList with h | h | h
  · left
    cases a; cases b
    simpa [String.toList] using congrArg String.mk h
  · exact Or.inr (Or.inl h)
  · exact Or.inr (Or.inr h)

/-- Elements of a sorted insertion come from the inserted path or the
original list. -/
theorem mem_insertPathSorted (p : String) :
    ∀ (l : List String) (x : String), x ∈ insertPathSorted p l → x = p ∨ x ∈ l := by
  intro l
  induction l with
  | nil =>
    intro x hx
    simp [insertPathSorted] at hx
    exact Or.inl hx
  | cons q qs ih =>
    intro x hx
    unfold insertPathSorted at hx
    by_cases h1 : p = q
    · rw [if_pos h1] at hx
      exact Or.inr hx
    · rw [if_neg h1] at hx
      by_cases h2 : pathLt p q = true
      · rw [if_pos h2] at hx
        rcases List.mem_cons.mp hx with rfl | hx
        · exact Or.inl rfl
        · exact Or.inr hx
      · rw [if_neg h2] at hx
        rcases List.mem_cons.mp hx with rfl | hx
        · exact Or.inr (List.mem_cons_self _ _)
        · rcases ih x hx with rfl | hx
          · exact Or.inl rfl
          · exact Or.inr (List.mem_cons_of_mem _ hx)

/-- Sorted insertion preserves strict sortedness. -/
theorem insertPathSorted_pairwise (p : String) :
    ∀ l : List String, l.Pairwise (fun a b => pathLt a b = true) →
      (insertPathSorted p l).Pairwise (fun a b => pathLt a b = true) := by
  intro l
  induction l with
  | nil => intro _; simp [insertPathSorted]
  | cons q qs ih =>
    intro hl
    rcases List.pairwise_cons.mp hl with ⟨hq, hqs⟩
    unfold insertPathSorted
    by_cases h1 : p = q
    · rw [if_pos h1]
      exact hl
    · rw [if_neg h1]
      by_cases h2 : pathLt p q = true
      · rw [if_pos h2]
        refine List.pairwise_cons.mpr ⟨?_, hl⟩
        intro x hx
        rcases List.mem_cons.mp hx with rfl | hx
        · exact h2
        · exact pathLt_trans h2 (hq x hx)
      · rw [if_neg h2]
        refine List.pairwise_cons.mpr ⟨?_, ih hqs⟩
        intro x hx
        rcases mem_insertPathSorted p qs x hx with rfl | hx
        · rcases pathLt_total x q with rfl | h | h
          · exact absurd rfl h1
          · exact absurd h h2
          · exact h
        · exact hq x hx

/-- The grouped file paths are strictly sorted. -/
theorem sortedPaths_pairwise (hs : List Hunk) :
    (sortedPaths hs).Pairwise (fun a b => pathLt a b = true) := by
  have key : ∀ (l : List Hunk) (acc : List String),
      acc.Pairwise (fun a b => pathLt a b = true) →
      (l.foldl (fun acc h => insertPathSorted h.file_path acc) acc).Pairwise
        (fun a b => pathLt a b = true) := by
    intro l
    induction l with
    | nil => intro acc hacc; exact hacc
    | cons h l ih =>
      intro acc hacc
      exact ih _ (insertPathSorted_pairwise h.file_path acc hacc)
  exact key hs [] (by simp)

/-- The grouped file paths are distinct. -/
theorem sortedPaths_nodup (hs : List Hunk) : (sortedPaths hs).Nodup := by
  refine (sortedPaths_pairwise hs).imp ?_
  intro a b hab he
  subst he
  rw [pathLt_irrefl] at hab
  exact absurd hab (by simp)

/-! ## Frame lemmas for the filesystem operations -/

/-- Updating a path leaves it looked up. -/
theorem lookupPairs_setFile_self (p c : String) :
    ∀ files, lookupPairs (setFile files p c) p = some c := by
  intro files
  induction files with
  | nil => simp [setFile, lookupPairs]
  | cons e rest ih =>
    by_cases he : e.1 = p
    · simp [setFile, he, lookupPairs]
    · simp [setFile, he, lookupPairs, ih]

/-- Updating a path leaves other paths untouched. -/
theorem lookupPairs_setFile_ne (p c q : String) (hq : q ≠ p) :
    ∀ files, lookupPairs (setFile files p c) q = lookupPairs files q := by
  intro files
  induction files with
  | nil =>
    simp only [setFile, lookupPairs]
    rw [if_neg (fun h : p = q => hq h.symm)]
  | cons e rest ih =>
    by_cases he : e.1 = p
    · simp only [setFile, if_pos he, lookupPairs]
      rw [if_neg (fun h : p = q => hq h.symm), if_neg (fun h : e.1 = q => hq (h ▸ he))]
    · simp only [setFile, if_neg he, lookupPairs]
      by_cases hq' : e.1 = q
      · rw [if_pos hq', if_pos hq']
      · rw [if_neg hq', if_neg hq', ih]

/-- Two filesystems with the same files agree on every lookup. -/
theorem lookupFile_congr (fs₁ fs₂ : FS) (q : String) (h : fs₁.files = fs₂.files) :
    lookupFile fs₁ q = lookupFile fs₂ q := by
  unfold lookupFile
  rw [h]

/-- `atomic_write` never touches paths other than its target. -/
theorem atomic_write_lookup_ne (p c q : String) (fs : FS) (hq : q ≠ p) :
    lookupFile (atomic_write p c fs).2 q = lookupFile fs q := by
  obtain ⟨files, faults, events⟩ := fs
  cases faults with
  | nil => simp [atomic_write, lookupFile, lookupPairs_setFile_ne p c q hq]
  | cons b rest =>
    cases b
    · simp [atomic_write, lookupFile, lookupPairs_setFile_ne p c q hq]
    · simp [atomic_write, lookupFile]

/-- A successful `atomic_write` stores exactly the new content. -/
theorem atomic_write_ok_lookup_self (p c : String) (fs fs₁ : FS) (u : Unit)
    (h : atomic_write p c fs = (Except.ok u, fs₁)) :
    lookupFile fs₁ p = some c := by
  obtain ⟨files, faults, events⟩ := fs
  cases faults with
  | nil =>
    simp only [atomic_write, Prod.mk.injEq] at h
    rw [← h.2]
    simp [lookupFile, lookupPairs_setFile_self]
  | cons b rest =>
    cases b
    · simp only [atomic_write, Bool.false_eq_true, if_false, Prod.mk.injEq] at h
      rw [← h.2]
      simp [lookupFile, lookupPairs_setFile_self]
    · simp [atomic_write] at h

/-- Reading never changes the stored files. -/
theorem read_to_string_files (p : String) (fs : FS) :
    (read_to_string p fs).2.files = fs.files := by
  unfold read_to_string
  cases h : lookupFile fs p <;> simp

/-- A successful read returns the stored content. -/
theorem read_to_string_ok (p : String) (fs : FS) (c : String) (fs₁ : FS)
    (h : read_to_string p fs = (Except.ok c, fs₁)) :
    lookupFile fs p = some c ∧ fs₁.files = fs.files := by
  unfold read_to_string at h
  cases hc : lookupFile fs p with
  | none =>
    rw [hc] at h
    simp at h
  | some c' =>
    rw [hc] at h
    simp only [Prod.mk.injEq, Except.ok.injEq] at h
    exact ⟨congrArg some h.1, by rw [← h.2]⟩

/-! ## Frame lemmas for the apply pipeline -/

/-- The backup-creation loop writes only backup paths. -/
theorem backupCreateLoop_lookup_frame (ts : String) :
    ∀ (files : List String) (acc : List (String × String)) (fs : FS) (q : String),
      (∀ f ∈ files, q ≠ backupPathFor ts f) →
      lookupFile (backupCreateLoop ts files acc fs).2 q = lookupFile fs q := by
  intro files
  induction files with
  | nil => intro acc fs q _; rfl
  | cons p rest ih =>
    intro acc fs q hq
    unfold backupCreateLoop
    rcases hr : read_to_string p fs with ⟨r, fs₁⟩
    have hrf : fs₁.files = fs.files := by
      have := read_to_string_files p fs
      rw [hr] at this
      exact this
    cases r with
    | error e =>
      simpa using lookupFile_congr fs₁ fs q hrf
    | ok content =>
      rcases hw : atomic_write (backupPathFor ts p) content
          { fs₁ with events := fs₁.events ++ [FsEvent.createDir backupDir] } with ⟨w, fs₂⟩
      have hbw : lookupFile fs₂ q = lookupFile fs q := by
        have h1 : lookupFile fs₂ q =
            lookupFile { fs₁ with events := fs₁.events ++ [FsEvent.createDir backupDir] } q := by
          have := atomic_write_lookup_ne (backupPathFor ts p) content q
            { fs₁ with events := fs₁.events ++ [FsEvent.createDir backupDir] }
            (hq p (List.mem_cons_self p rest))
          rw [hw] at this
          exact this
        rw [h1]
        exact lookupFile_congr _ fs q hrf
      cases w with
      | error e => simpa [hw] using hbw
      | ok u =>
        simp only [hw]
        rw [ih (acc ++ [(p, backupPathFor ts p)]) fs₂ q
          (fun f hf => hq f (List.mem_cons_of_mem p hf))]
        exact hbw

/-- A successful backup creation records, for every input file, its
pre-call content at its backup path, and returns exactly the
input-order mapping. -/
theorem backupCreateLoop_ok_spec (ts : String) :
    ∀ (files : List String) (acc : List (String × String)) (fs : FS)
      (backups : List (String × String)) (fs₁ : FS),
      backupCreateLoop ts files acc fs = (Except.ok backups, fs₁) →
      files.Nodup →
      (∀ f ∈ files, ∀ g ∈ files, backupPathFor ts f = backupPathFor ts g → f = g) →
      (∀ f ∈ files, ∀ g ∈ files, f ≠ backupPathFor ts g) →
      backups = acc ++ files.map (fun p => (p, backupPathFor ts p)) ∧
      ∀ p ∈ files, ∃ c, lookupFile fs p = some c ∧
        lookupFile fs₁ (backupPathFor ts p) = some c := by
  intro files
  induction files with
  | nil =>
    intro acc fs backups fs₁ h _ _ _
    simp only [backupCreateLoop, Prod.mk.injEq, Except.ok.injEq] at h
    exact ⟨by simp [← h.1], by simp⟩
  | cons p rest ih =>
    intro acc fs backups fs₁ h hnd hinj hdisj
    unfold backupCreateLoop at h
    rcases hr : read_to_string p fs with ⟨r, fsr⟩
    rw [hr] at h
    cases r with
    | error e => simp at h
    | ok content =>
      rcases read_to_string_ok p fs content fsr hr with ⟨hread, hrf⟩
      dsimp only at h
      rcases hw : atomic_write (backupPathFor ts p) content
          { fsr with events := fsr.events ++ [FsEvent.createDir backupDir] } with ⟨w, fsw⟩
      rw [hw] at h
      cases w with
      | error e => simp at h
      | ok u =>
        dsimp only at h
        have hrest := ih (acc ++ [(p, backupPathFor ts p)]) fsw backups fs₁ h
          (List.nodup_cons.mp hnd).2
          (fun f hf g hg => hinj f (List.mem_cons_of_mem p hf) g (List.mem_cons_of_mem p hg))
          (fun f hf g hg => hdisj f (List.mem_cons_of_mem p hf) g (List.mem_cons_of_mem p hg))
        refine ⟨by simpa using hrest.1, ?_⟩
        intro x hx
        rcases List.mem_cons.mp hx with rfl | hx
        · refine ⟨content, hread, ?_⟩
          have hframe := backupCreateLoop_lookup_frame ts rest
            (acc ++ [(x, backupPathFor ts x)]) fsw (backupPathFor ts x) ?_
          · rw [h] at hframe
            rw [hframe]
            exact atomic_write_ok_lookup_self _ content _ fsw u hw
          · intro f hf hbp
            have : f = x := hinj f (List.mem_cons_of_mem x hf) x (List.mem_cons_self x rest)
              hbp.symm
            subst this
            exact (List.nodup_cons.mp hnd).1 hf
        · rcases hrest.2 x hx with ⟨c, hc₁, hc₂⟩
          refine ⟨c, ?_, hc₂⟩
          rw [← hc₁]
          have h1 : lookupFile fsw x =
              lookupFile { fsr with events := fsr.events ++ [FsEvent.createDir backupDir] } x := by
            have := atomic_write_lookup_ne (backupPathFor ts p) content x
              { fsr with events := fsr.events ++ [FsEvent.createDir backupDir] }
              (hdisj x (List.mem_cons_of_mem p hx) p (List.mem_cons_self p rest))
            rw [hw] at this
            exact this
          rw [h1]
          exact (lookupFile_congr _ fs x hrf).symm

/-- The apply loop writes only the grouped file paths. -/
theorem applyAllFilesLoop_lookup_frame (pending : List (String × FileChange)) :
    ∀ (hbf : List (String × List Hunk)) (acc : List String) (fs : FS) (q : String),
      (∀ e ∈ hbf, q ≠ e.1) →
      lookupFile (applyAllFilesLoop pending hbf acc fs).2 q = lookupFile fs q := by
  intro hbf
  induction hbf with
  | nil => intro acc fs q _; rfl
  | cons e rest ih =>
    intro acc fs q hq
    obtain ⟨p, hs⟩ := e
    unfold applyAllFilesLoop
    rcases hstep : (if hs.any (fun _ =>
        ((lookupAssoc pending p).map (fun c => c.change_type == ChangeType.Create)).getD false)
      then (Except.ok (reconstruct_file_content "" hs), fs)
      else
        match read_to_string p fs with
        | (Except.error e, fs) =>
          (Except.error (AppError.context ("Failed to read file: " ++ p) e), fs)
        | (Except.ok original, fs) =>
          (Except.ok (reconstruct_file_content original hs), fs) :
        Except AppError String × FS) with ⟨r, fs₁⟩
    have hf₁ : fs₁.files = fs.files := by
      by_cases hc : hs.any (fun _ =>
          ((lookupAssoc pending p).map (fun c => c.change_type == ChangeType.Create)).getD false)
      · rw [if_pos hc] at hstep
        have h2 : fs = fs₁ := congrArg Prod.snd hstep
        rw [← h2]
      · rw [if_neg hc] at hstep
        rcases hr : read_to_string p fs with ⟨rr, fsr⟩
        rw [hr] at hstep
        have hrf : fsr.files = fs.files := by
          have := read_to_string_files p fs
          rw [hr] at this
          exact this
        cases rr with
        | error e2 =>
          have h2 : fsr = fs₁ := congrArg Prod.snd hstep
          rw [← h2]
          exact hrf
        | ok original =>
          have h2 : fsr = fs₁ := congrArg Prod.snd hstep
          rw [← h2]
          exact hrf
    cases r with
    | error e2 =>
      simpa using lookupFile_congr fs₁ fs q hf₁
    | ok new_content =>
      rcases hw : atomic_write p new_content fs₁ with ⟨w, fs₂⟩
      have hw2 : lookupFile fs₂ q = lookupFile fs q := by
        have := atomic_write_lookup_ne p new_content q fs₁
          (hq (p, hs) (List.mem_cons_self _ _))
        rw [hw] at this
        rw [this]
        exact lookupFile_congr fs₁ fs q hf₁
      dsimp only
      rw [hw]
      cases w with
      | error e2 => simpa using hw2
      | ok u =>
        dsimp only
        rw [ih (acc ++ [p]) fs₂ q (fun x hx => hq x (List.mem_cons_of_mem _ hx))]
        exact hw2

/-- A single restore writes only its own original path. -/
theorem restore_single_lookup_frame (op bp q : String) (fs : FS) (hq : q ≠ op) :
    lookupFile (restore_single op bp fs).2 q = lookupFile fs q := by
  unfold restore_single
  rcases hr : read_to_string bp fs with ⟨r, fsr⟩
  have hrf : fsr.files = fs.files := by
    have := read_to_string_files bp fs
    rw [hr] at this
    exact this
  cases r with
  | error e => simpa using lookupFile_congr fsr fs q hrf
  | ok content =>
    rcases hw : atomic_write op content fsr with ⟨w, fsw⟩
    have hwq : lookupFile fsw q = lookupFile fs q := by
      have := atomic_write_lookup_ne op content q fsr hq
      rw [hw] at this
      rw [this]
      exact lookupFile_congr fsr fs q hrf
    dsimp only
    rw [hw]
    cases w with
    | error e => simpa using hwq
    | ok u => simpa using hwq

/-- The restore loop writes only the original paths of its mapping. -/
theorem restoreLoop_lookup_frame :
    ∀ (bl : List (String × String)) (errs : List (String × AppError)) (fs : FS) (q : String),
      (∀ e ∈ bl, q ≠ e.1) →
      lookupFile (restoreLoop bl errs fs).2 q = lookupFile fs q := by
  intro bl
  induction bl with
  | nil => intro errs fs q _; rfl
  | cons e rest ih =>
    intro errs fs q hq
    obtain ⟨op, bp⟩ := e
    unfold restoreLoop
    rcases hr : restore_single op bp fs with ⟨r, fsr⟩
    have hrf : lookupFile fsr q = lookupFile fs q := by
      have := restore_single_lookup_frame op bp q fs (hq (op, bp) (List.mem_cons_self _ _))
      rw [hr] at this
      exact this
    cases r with
    | error e2 =>
      simp only
      rw [ih (errs ++ [(op, e2)]) fsr q (fun x hx => hq x (List.mem_cons_of_mem _ hx))]
      exact hrf
    | ok u =>
      simp only
      rw [ih errs fsr q (fun x hx => hq x (List.mem_cons_of_mem _ hx))]
      exact hrf

/-- `restore_all` ends in the restore loop's filesystem whatever the
outcome. -/
theorem restore_all_snd (bs : BackupSet) (fs : FS) :
    (bs.restore_all fs).2 = (restoreLoop bs.backups [] fs).2 := by
  unfold BackupSet.restore_all
  rcases h : restoreLoop bs.backups [] fs with ⟨errs, fs₁⟩
  cases errs <;> simp

/-- Fixture: an accepted single-insertion hunk for file `"a"`. -/
def exHunkA : Hunk :=
  ⟨0, "a", 1, 1, [⟨ChangeTag.Insert, "x", none, some 0⟩], HunkStatus.Accepted⟩

/-- Fixture: an accepted single-insertion hunk for file `"b"`. -/
def exHunkB : Hunk :=
  ⟨1, "b", 1, 1, [⟨ChangeTag.Insert, "y", none, some 0⟩], HunkStatus.Accepted⟩

/-- Fixture: two files; the schedule lets both backups and the write of
`"a"` succeed, fails the write of `"b"`, then fails the restore of
`"a"` and lets the restore of `"b"` succeed. -/
def exFs0 : FS := ⟨[("a", "A"), ("b", "B")], [false, false, false, true, true, false], []⟩

/-- Fixture: one file; the backup succeeds, the write of `"a"` fails,
the restore succeeds. -/
def exFsW : FS := ⟨[("a", "A")], [false, true], []⟩

/-- The error `apply_accepted_hunks` returns on the `exFs0` scenario:
the apply error wrapped in context — with no restore-failure report. -/
def exErr : AppError :=
  AppError.context "Failed to apply hunks"
    (AppError.context "Failed to write file: b" (AppError.msg "atomic write failed: b"))

/-- `BackupSet::create` ends in the creation loop's filesystem whatever
the outcome. -/
theorem BackupSet.create_snd (files : List String) (ts : String) (fs : FS) :
    (BackupSet.create files ts fs).2 = (backupCreateLoop ts files [] fs).2 := by
  unfold BackupSet.create
  rcases h : backupCreateLoop ts files [] fs with ⟨r, fs₁⟩
  cases r <;> simp

/-- A successful `BackupSet::create` snapshots every file's pre-call
content at its backup path and records the full mapping. -/
theorem BackupSet.create_ok_spec (files : List String) (ts : String) (fs : FS)
    (bs : BackupSet) (fs₁ : FS)
    (h : BackupSet.create files ts fs = (Except.ok bs, fs₁))
    (hnd : files.Nodup)
    (hinj : ∀ f ∈ files, ∀ g ∈ files, backupPathFor ts f = backupPathFor ts g → f = g)
    (hdisj : ∀ f ∈ files, ∀ g ∈ files, f ≠ backupPathFor ts g) :
    bs.backups = files.map (fun p => (p, backupPathFor ts p)) ∧
    ∀ p ∈ files, ∃ c, lookupFile fs p = some c ∧
      lookupFile fs₁ (backupPathFor ts p) = some c := by
  unfold BackupSet.create at h
  rcases hl : backupCreateLoop ts files [] fs with ⟨r, fs₂⟩
  rw [hl] at h
  cases r with
  | error e => simp at h
  | ok backups =>
    simp only [Prod.mk.injEq, Except.ok.injEq] at h
    obtain ⟨hbs, hfs⟩ := h
    subst hfs
    rcases backupCreateLoop_ok_spec ts files [] fs backups _ hl hnd hinj hdisj with ⟨h1, h2⟩
    refine ⟨?_, h2⟩
    rw [← hbs]
    simpa using h1

/-- The key list of `hunks_by_file` is the sorted distinct path list. -/
theorem hunks_by_file_fst (hs : List Hunk) :
    (hunks_by_file hs).map Prod.fst = sortedPaths hs := by
  unfold hunks_by_file
  rw [List.map_map]
  have hid : (Prod.fst ∘ fun p => (p, hs.filter (fun h => h.file_path = p))) = id := rfl
  rw [hid, List.map_id]

/-- C7: when no hunk of the input is `Accepted`, `apply_accepted_hunks`
fails with the `NoAcceptedHunks` error ("No accepted hunks to apply")
and the filesystem — including the log of attempted operations — is
exactly as before: nothing is read, written or backed up. -/
theorem c7_no_accepted_hunks_pure_failure
    (hunks : List Hunk) (pending : List (String × FileChange)) (config : Config)
    (ts : String) (fs : FS)
    (hnone : ∀ h ∈ hunks, h.status ≠ HunkStatus.Accepted) :
    apply_accepted_hunks hunks pending config ts fs =
      (Except.error (AppError.msg "No accepted hunks to apply"), fs) := by
  unfold apply_accepted_hunks
  have hfil : hunks.filter (fun h => h.status = HunkStatus.Accepted) = [] := by
    apply List.filter_eq_nil_iff.mpr
    intro h hm
    simpa using hnone h hm
  rw [hfil]
  rfl

/-- C7 witness: a single `Pending` hunk over a concrete filesystem. -/
theorem c7_no_accepted_hunks_pure_failure_witness :
    (∀ h ∈ [(⟨0, "a", 1, 1, [], HunkStatus.Pending⟩ : Hunk)],
      h.status ≠ HunkStatus.Accepted) ∧
    apply_accepted_hunks [⟨0, "a", 1, 1, [], HunkStatus.Pending⟩] [] ⟨true⟩ "T"
        ⟨[("a", "A")], [], []⟩ =
      (Except.error (AppError.msg "No accepted hunks to apply"), ⟨[("a", "A")], [], []⟩) :=
  ⟨by decide,
   c7_no_accepted_hunks_pure_failure [⟨0, "a", 1, 1, [], HunkStatus.Pending⟩] [] ⟨true⟩ "T"
     ⟨[("a", "A")], [], []⟩ (by decide)⟩

/-- C2 (amended): when `apply_accepted_hunks` with backups enabled
returns failure, every grouped input path is either byte-identical to
its pre-call content or its pre-call content is still available in the
backup file the set created for it; restore failures are silently
discarded (`let _ = backup_set.restore_all()`), so no `RestorePartial`
report reaches the caller.  The hypotheses say that target paths do not
collide with backup paths and that distinct targets get distinct backup
paths (true of real path sets; violating them needs a target inside
the backup directory or two targets with the same basename). -/
theorem c2_failure_keeps_original_or_backup
    (hunks : List Hunk) (pending : List (String × FileChange)) (ts : String) (fs : FS)
    (e : AppError) (fs' : FS)
    (hrun : apply_accepted_hunks hunks pending ⟨true⟩ ts fs = (Except.error e, fs'))
    (hdisj : ∀ q ∈ sortedPaths (hunks.filter (fun h => h.status = HunkStatus.Accepted)),
      ∀ r ∈ sortedPaths (hunks.filter (fun h => h.status = HunkStatus.Accepted)),
        q ≠ backupPathFor ts r)
    (hinj : ∀ q ∈ sortedPaths (hunks.filter (fun h => h.status = HunkStatus.Accepted)),
      ∀ r ∈ sortedPaths (hunks.filter (fun h => h.status = HunkStatus.Accepted)),
        backupPathFor ts q = backupPathFor ts r → q = r)
    (p : String)
    (hp : p ∈ sortedPaths (hunks.filter (fun h => h.status = HunkStatus.Accepted))) :
    lookupFile fs' p = lookupFile fs p ∨
    ∃ c, lookupFile fs p = some c ∧ lookupFile fs' (backupPathFor ts p) = some c := by
  unfold apply_accepted_hunks at hrun
  set accepted := hunks.filter (fun h => h.status = HunkStatus.Accepted) with hacc
  by_cases hemp : accepted.isEmpty = true
  · rw [if_pos hemp] at hrun
    left
    have h2 : fs = fs' := congrArg Prod.snd hrun
    rw [← h2]
  · rw [if_neg hemp] at hrun
    dsimp only at hrun
    have hsp : (hunks_by_file accepted).map Prod.fst = sortedPaths accepted :=
      hunks_by_file_fst accepted
    rcases hcr : BackupSet.create ((hunks_by_file accepted).map Prod.fst) ts fs
      with ⟨cres, fsc⟩
    rw [hcr] at hrun
    simp only [reduceIte] at hrun
    cases cres with
    | error ec =>
      left
      have h2 : fsc = fs' := congrArg Prod.snd hrun
      rw [← h2]
      have hsnd : fsc = (backupCreateLoop ts ((hunks_by_file accepted).map Prod.fst) [] fs).2 := by
        have := BackupSet.create_snd ((hunks_by_file accepted).map Prod.fst) ts fs
        rw [hcr] at this
        exact this
      rw [hsnd]
      exact backupCreateLoop_lookup_frame ts _ [] fs p
        (by
          intro f hf
          rw [hsp] at hf
          exact hdisj p hp f hf)
    | ok bs =>
      dsimp only at hrun
      rcases hap : apply_all_files (hunks_by_file accepted) pending fsc with ⟨ar, fsa⟩
      rw [hap] at hrun
      cases ar with
      | ok mods => simp at hrun
      | error ea =>
        right
        have h2 : (bs.restore_all fsa).2 = fs' := congrArg Prod.snd hrun
        have hnd : ((hunks_by_file accepted).map Prod.fst).Nodup := by
          rw [hsp]
          exact sortedPaths_nodup accepted
        rcases BackupSet.create_ok_spec _ ts fs bs fsc hcr hnd
            (by
              intro f hf g hg
              rw [hsp] at hf hg
              exact hinj f hf g hg)
            (by
              intro f hf g hg
              rw [hsp] at hf hg
              exact hdisj f hf g hg) with ⟨hbs, hcontent⟩
        rcases hcontent p (by rw [hsp]; exact hp) with ⟨c, hc₁, hc₂⟩
        refine ⟨c, hc₁, ?_⟩
        rw [← h2, restore_all_snd]
        have hframe₁ : lookupFile (restoreLoop bs.backups [] fsa).2 (backupPathFor ts p) =
            lookupFile fsa (backupPathFor ts p) := by
          apply restoreLoop_lookup_frame
          intro x hx
          rw [hbs] at hx
          rcases List.mem_map.mp hx with ⟨f, hf, rfl⟩
          rw [hsp] at hf
          exact (hdisj f hf p hp).symm
        have hframe₂ : lookupFile fsa (backupPathFor ts p) =
            lookupFile fsc (backupPathFor ts p) := by
          have := applyAllFilesLoop_lookup_frame pending (hunks_by_file accepted) [] fsc
            (backupPathFor ts p)
            (by
              intro x hx
              have hx1 : x.1 ∈ (hunks_by_file accepted).map Prod.fst :=
                List.mem_map.mpr ⟨x, hx, rfl⟩
              rw [hsp] at hx1
              exact (hdisj x.1 hx1 p hp).symm)
          rw [show applyAllFilesLoop pending (hunks_by_file accepted) [] fsc =
            apply_all_files (hunks_by_file accepted) pending fsc from rfl, hap] at this
          exact this
        rw [hframe₁, hframe₂]
        exact hc₂

/-- The error of the single-file witness scenario. -/
def exErrW : AppError :=
  AppError.context "Failed to apply hunks"
    (AppError.context "Failed to write file: a" (AppError.msg "atomic write failed: a"))

/-- The final filesystem of the single-file witness scenario: the
target is restored, the backup file remains. -/
def exFsWFinal : FS :=
  ⟨[("a", "A"), ("cache/zcode/backups/T_a", "A")], [],
   [FsEvent.read "a", FsEvent.createDir "cache/zcode/backups",
    FsEvent.write "cache/zcode/backups/T_a", FsEvent.read "a", FsEvent.write "a",
    FsEvent.read "cache/zcode/backups/T_a", FsEvent.write "a"]⟩

/-- C2 witness: the amended theorem applied to a one-file apply whose
write fails: the path stays byte-identical (and its backup holds the
original). -/
theorem c2_failure_keeps_original_or_backup_witness :
    apply_accepted_hunks [exHunkA] [] ⟨true⟩ "T" exFsW = (Except.error exErrW, exFsWFinal) ∧
    (lookupFile exFsWFinal "a" = lookupFile exFsW "a" ∨
     ∃ c, lookupFile exFsW "a" = some c ∧
       lookupFile exFsWFinal (backupPathFor "T" "a") = some c) :=
  ⟨by rfl,
   c2_failure_keeps_original_or_backup [exHunkA] [] "T" exFsW exErrW exFsWFinal (by rfl)
     (by decide) (by decide) "a" (by decide)⟩

/-- C2 counterexample: on the two-file scenario `exFs0` the apply fails
after modifying `"a"`, the scheduled restore of `"a"` fails as well,
and yet the returned error carries no restore-failure report: the path
`"a"` is neither byte-identical to its pre-call content nor reported in
a `RestorePartial`-style aggregated restore error. -/
theorem c2_counterexample :
    (apply_accepted_hunks [exHunkA, exHunkB] [] ⟨true⟩ "T" exFs0).1 = Except.error exErr ∧
    restoreReported exErr = [] ∧
    lookupFile (apply_accepted_hunks [exHunkA, exHunkB] [] ⟨true⟩ "T" exFs0).2 "a" =
      some "x\nA" ∧
    lookupFile exFs0 "a" = some "A" ∧
    ("x\nA" : String) ≠ "A" :=
  ⟨by rfl, by rfl, by rfl, by rfl, by decide⟩

/-! ## Subprocess executor (`src/executor.rs`)

The spawned process is abstracted to its observable behaviour: an exit
status (`none` when terminated by a signal, as `ExitStatus::code()`
returns) and the raw byte streams it writes, modelled as text.  The
reader tasks are the `BufReader::lines` loops of `execute_command`. -/

/-- One observed subprocess: status and raw stream contents. -/
structure ProcessBehavior where
  status : Option Int
  rawStdout : String
  rawStderr : String
  deriving DecidableEq, Repr

/-- `CommandResult` from `src/executor.rs`; the `BTreeMap` context is
an association list sorted by key. -/
structure CommandResult where
  exit_code : Option Int
  stdout : String
  stderr : String
  context : List (String × String)
  deriving DecidableEq, Repr

/-- The reader loop of `execute_command`: `lines.next_line()` yields
each line without its `\n` (a `\r` before the `\n` is also dropped; a
final unterminated line is yielded as is), and the loop appends the
line plus a fresh `b'\n'` to the output buffer. -/
def captureLines : List Char → List Char → List Char
  | [], cur => if cur.isEmpty then [] else cur.reverse ++ ['\n']
  | c :: rest, cur =>
    if c = '\n' then stripTrailingCR cur.reverse ++ '\n' :: captureLines rest []
    else captureLines rest (c :: cur)

/-- The captured bytes of one stream. -/
def capture_output (raw : String) : String :=
  String.mk (captureLines raw.toList [])

/-- `execute_command` (`src/executor.rs`) on a spawned process: capture
both streams through the line readers, return the exit code (absent
for signal termination) and pass the context tags through verbatim. -/
def execute_command (command : String) (args : List String)
    (context : List (String × String)) (proc : ProcessBehavior) : CommandResult :=
  { exit_code := proc.status,
    stdout := capture_output proc.rawStdout,
    stderr := capture_output proc.rawStderr,
    context := context }

/-- `execute_provider_detection` (`src/executor.rs`): context keys in
`BTreeMap` order. -/
def execute_provider_detection (command provider_id display_name config_key : String)
    (proc : ProcessBehavior) : CommandResult :=
  execute_command command ["--version"]
    [("cli_command", command), ("config_key", config_key),
     ("display_name", display_name), ("provider_id", provider_id)] proc

/-- `execute_provider_prompt` (`src/executor.rs`): context keys in
`BTreeMap` order. -/
def execute_provider_prompt (command : String) (args : List String)
    (provider_name : String) (proc : ProcessBehavior) : CommandResult :=
  execute_command command args
    [("provider", provider_name), ("request_type", "prompt_execution")] proc

/-- The lines of a raw stream as `tokio`'s `lines()` reader yields
them: split at `\n`, strip one `\r` before each `\n`, keep an
unterminated tail verbatim, drop a final empty tail. -/
def tokioLines (raw : List Char) : List (List Char) :=
  let pieces := splitChar '\n' raw []
  pieces.dropLast.map stripTrailingCR ++
    (if pieces.getLast?.getD [] = [] then [] else [pieces.getLast?.getD []])

/-! ## Application state machine (`src/app.rs`, `src/state.rs`)

Only the state the completion handler `App::handle_command_result`
touches is modelled; purely visual fields (scroll positions, search
state, themes, …) are omitted.  `chrono::Utc::now()` enters as a tick
parameter, and the `Box<dyn AIProvider>` is abstracted to the one
method the handler calls, `parse_file_changes`. -/

/-- `Mode` from `src/state.rs`. -/
inductive Mode where
  | ProviderSelect
  | PromptEntry
  | Processing
  | DiffReview
  | Confirmation
  | Error
  | ChatHistory
  | CommandMode
  | Help
  deriving DecidableEq, Repr

/-- `ExecutionState` from `src/state.rs`. -/
inductive ExecutionState where
  | Idle
  | WaitingForResult
  deriving DecidableEq, Repr

/-- `DetectionState` from `src/state.rs`. -/
inductive DetectionState where
  | NotStarted
  | InProgress
  | Completed
  deriving DecidableEq, Repr

/-- `MessageStatus` from `src/state.rs`. -/
inductive MessageStatus where
  | Success
  | Error
  | Pending
  | Working
  deriving DecidableEq, Repr

/-- `ChatMessage` from `src/state.rs`; the timestamp is the tick the
handler was called at, the `f64` cost stays abstract. -/
structure ChatMessage where
  id : Nat
  timestamp : Nat
  is_user : Bool
  content : String
  token_count : Option Nat
  cost : Option Float
  status : MessageStatus
  associated_files : List String
  deriving Repr

/-- The navigable part of `ChatHistory` from `src/state.rs` (scroll,
search and filter state are visual only). -/
structure ChatHistory where
  messages : List ChatMessage
  next_id : Nat
  deriving Repr

/-- The part of `SessionManager` (`src/session.rs`) the handler
touches; a session is represented by its message list. -/
structure SessionManager where
  current_session_id : Option String
  sessions : List (String × List ChatMessage)
  deriving Repr

/-- The one field of `StatusInfo` (`src/state.rs`) the handler writes. -/
structure StatusInfo where
  is_working : Bool
  deriving DecidableEq, Repr

/-- `ErrorDisplay` from `src/error.rs`. -/
structure ErrorDisplay where
  title : String
  message : String
  help_url : Option String
  deriving DecidableEq, Repr

/-- `ProviderInfo` from `src/state.rs`. -/
structure ProviderInfo where
  name : String
  available : Bool
  cli_command : String
  config_key : String
  deriving DecidableEq, Repr

/-- `DecorationType` from `src/state.rs`. -/
inductive DecorationType where
  | Addition
  | Deletion
  | Context
  deriving DecidableEq, Repr

/-- `LineDecoration` from `src/state.rs`. -/
structure LineDecoration where
  line_number : Nat
  decoration_type : DecorationType
  original_text : Option String
  new_text : Option String
  accepted : Option Bool
  deriving DecidableEq, Repr

/-- `ChangeStatus` from `src/state.rs`. -/
inductive ChangeStatus where
  | Pending
  | PartialAccept
  | Accepted
  | Rejected
  | Applied
  deriving DecidableEq, Repr

/-- `ProposedChange` from `src/state.rs`. -/
structure ProposedChange where
  id : Nat
  file_path : String
  original_content : String
  proposed_content : String
  line_decorations : List LineDecoration
  status : ChangeStatus
  deriving DecidableEq, Repr

/-- The overlay diff state (`src/state.rs`); only the proposed-change
list is touched by the handler. -/
structure OverlayDiffState where
  proposed_changes : List ProposedChange
  deriving DecidableEq, Repr

/-- The `Box<dyn AIProvider>` reduced to the method the handler calls. -/
structure Provider where
  parse_file_changes : String → Except String (List FileChange)

/-- The application state slice `App::handle_command_result` reads and
writes. -/
structure AppState where
  mode : Mode
  execution_state : ExecutionState
  status_info : StatusInfo
  chat_history : ChatHistory
  sessions : SessionManager
  pending_detections : List String
  available_providers : List ProviderInfo
  detection_state : DetectionState
  provider : Option Provider
  pending_changes : List (String × FileChange)
  hunks : List Hunk
  overlay_diff_state : OverlayDiffState
  last_error : Option ErrorDisplay

/-- Generic association-list update (`HashMap::insert` /
`get_mut`-and-assign). -/
def setPairs {α : Type} : List (String × α) → String → α → List (String × α)
  | [], p, v => [(p, v)]
  | e :: rest, p, v => if e.1 = p then (p, v) :: rest else e :: setPairs rest p v

/-- The per-change body of the success path of
`App::handle_command_result`: record the pending change, diff it,
build the line decorations of its hunks and push a `ProposedChange`. -/
def applyParsedChange (s : AppState) (change : FileChange) : AppState :=
  let s := { s with pending_changes := setPairs s.pending_changes change.path change }
  let original := change.original_content.getD ""
  let proposed := change.proposed_content
  let diff := generate_diff original proposed
  let hunks := extract_hunks change.path diff
  let line_decorations := hunks.foldl
    (fun acc hunk => acc ++ hunk.changes.map (fun line_change =>
      { line_number := (line_change.new_line_num.or line_change.old_line_num).getD 0,
        decoration_type :=
          match line_change.tag with
          | ChangeTag.Insert => DecorationType.Addition
          | ChangeTag.Delete => DecorationType.Deletion
          | ChangeTag.Equal => DecorationType.Context,
        original_text :=
          if line_change.tag = ChangeTag.Delete ∨ line_change.tag = ChangeTag.Equal then
            some line_change.content
          else none,
        new_text :=
          if line_change.tag = ChangeTag.Insert ∨ line_change.tag = ChangeTag.Equal then
            some line_change.content
          else none,
        accepted := none })) []
  let proposed_change : ProposedChange :=
    { id := s.overlay_diff_state.proposed_changes.length,
      file_path := change.path,
      original_content := original,
      proposed_content := proposed,
      line_decorations := line_decorations,
      status := ChangeStatus.Pending }
  { s with overlay_diff_state :=
      { proposed_changes := s.overlay_diff_state.proposed_changes ++ [proposed_change] } }

/-- The first section of `App::handle_command_result`: a result whose
context carries `provider_id` is a detection completion; it is
consumed with no look at the current mode. -/
def handleDetection (s : AppState) (result : CommandResult) : AppState :=
  match lookupPairs result.context "provider_id" with
  | none => s
  | some provider_id =>
    if provider_id ∈ s.pending_detections then
      let s := { s with pending_detections := s.pending_detections.erase provider_id }
      let s :=
        if result.exit_code = some 0 then
          match lookupPairs result.context "display_name",
              lookupPairs result.context "cli_command",
              lookupPairs result.context "config_key" with
          | some display_name, some cli_command, some config_key =>
            { s with available_providers := s.available_providers ++
                [⟨display_name, true, cli_command, config_key⟩] }
          | _, _, _ => s
        else s
      if s.pending_detections.isEmpty then
        { s with detection_state := DetectionState.Completed }
      else s
    else s

/-- The second section of `App::handle_command_result`: a result
tagged `request_type=prompt_execution` resets the execution state and,
when an exit code is present, either ingests the parsed changes
(exit 0) or surfaces a provider error; with no exit code (signal
termination) nothing further happens.  No branch inspects the mode. -/
def handlePromptExecution (s : AppState) (result : CommandResult) (now : Nat) : AppState :=
  if lookupPairs result.context "request_type" = some "prompt_execution" then
    let s := { s with execution_state := ExecutionState.Idle,
                      status_info := { s.status_info with is_working := false } }
    match result.exit_code with
    | none => s
    | some exit_code =>
      if exit_code = 0 then
        match s.provider with
        | none => s
        | some provider =>
          let output := result.stdout
          let assistant_message : ChatMessage :=
            { id := s.chat_history.next_id, timestamp := now, is_user := false,
              content := output, token_count := none, cost := none,
              status := MessageStatus.Success, associated_files := [] }
          let s := { s with chat_history :=
            { messages := s.chat_history.messages ++ [assistant_message],
              next_id := s.chat_history.next_id + 1 } }
          let s :=
            match s.sessions.current_session_id with
            | some current_id =>
              match lookupPairs s.sessions.sessions current_id with
              | some session_messages =>
                match s.chat_history.messages.getLast? with
                | some last =>
                  let updated := setPairs s.sessions.sessions current_id
                    (session_messages ++ [last])
                  { s with sessions := { s.sessions with sessions := updated } }
                | none => s
              | none => s
            | none => s
          match provider.parse_file_changes output with
          | Except.ok changes =>
            let s := { s with
              pending_changes := []
              hunks := []
              overlay_diff_state := { proposed_changes := [] } }
            let s := changes.foldl applyParsedChange s
            { s with mode := Mode.DiffReview }
          | Except.error e =>
            { s with
              last_error := some ⟨"Parse Error", "Failed to parse provider output: " ++ e, none⟩,
              mode := Mode.Error }
      else
        let stderr_str := result.stderr
        let error_message : ChatMessage :=
          { id := s.chat_history.next_id, timestamp := now, is_user := false,
            content := "Error: " ++ stderr_str, token_count := none, cost := none,
            status := MessageStatus.Error, associated_files := [] }
        let s := { s with chat_history :=
          { messages := s.chat_history.messages ++ [error_message],
            next_id := s.chat_history.next_id + 1 } }
        { s with
          last_error := some ⟨"Provider Error",
            "Command failed (exit " ++ toString exit_code ++ "): " ++ stderr_str, none⟩,
          mode := Mode.Error }
  else s

/-- `App::handle_command_result` (`src/app.rs`): the detection section
runs first, the prompt-execution section second; neither consults the
current mode. -/
def handle_command_result (s : AppState) (result : CommandResult) (now : Nat) : AppState :=
  handlePromptExecution (handleDetection s result) result now

/-! ## Helpers used by claim statements -/

/-- Mark every hunk `Accepted`, modelling the user accepting all of
them in the review UI. -/
def acceptAll (hs : List Hunk) : List Hunk :=
  hs.map (fun h => { h with status := HunkStatus.Accepted })

/-- Drop one trailing newline, the normalization the spec's round-trip
invariant allows ("up to normalization of the trailing newline"). -/
def stripTrailingNewline (s : String) : String :=
  match s.toList.getLast? with
  | some c => if c = '\n' then String.mk s.toList.dropLast else s
  | none => s

/-- The spec's words for C3: the smallest `old_line_num` appearing
among a hunk's changes, or 0 when none does (pure insertion at the
top). -/
def specSmallestOldLine (h : Hunk) : Nat :=
  match h.changes.filterMap LineChange.old_line_num with
  | [] => 0
  | x :: xs => xs.foldl min x

/-! ## Lemmas about the diff model -/

/-- With enough fuel, diffing a list against itself yields only
`Equal` changes. -/
theorem diffChangesF_self_all_equal :
    ∀ (fuel : Nat) (l : List String) (i j : Nat), l.length ≤ fuel →
      ∀ c ∈ diffChangesF fuel l l i j, isEqualChange c = true := by
  intro fuel
  induction fuel with
  | zero =>
    intro l i j hl c hc
    simp [diffChangesF] at hc
  | succ n ih =>
    intro l i j hl c hc
    cases l with
    | nil => simp [diffChangesF] at hc
    | cons a as =>
      rw [diffChangesF, if_pos rfl] at hc
      rcases List.mem_cons.mp hc with rfl | hc
      · rfl
      · exact ih as (i + 1) (j + 1) (Nat.le_of_succ_le_succ (by simpa using hl)) c hc

/-- Every change of the self-diff of a text is an `Equal` change. -/
theorem generate_diff_self_all_equal (x : String) :
    ∀ c ∈ generate_diff x x, isEqualChange c = true := by
  intro c hc
  exact diffChangesF_self_all_equal _ _ 0 0 (by omega) c hc

/-- `toRuns` of an all-`Equal` change stream is empty or one single
equal-labelled run. -/
theorem toRuns_all_equal :
    ∀ cs : List LineChange, (∀ c ∈ cs, isEqualChange c = true) →
      toRuns cs = [] ∨ ∃ run, toRuns cs = [(true, run)] := by
  intro cs
  induction cs with
  | nil => intro _; left; rfl
  | cons c cs ih =>
    intro h
    right
    have hc : isEqualChange c = true := h c (List.mem_cons_self c cs)
    rcases ih (fun x hx => h x (List.mem_cons_of_mem c hx)) with h0 | ⟨run, hr⟩
    · exact ⟨[c], by simp [toRuns, h0, hc]⟩
    · exact ⟨c :: run, by simp [toRuns, hr, hc]⟩

/-- Grouping an all-`Equal` change stream produces no groups: the
pure-context pending group is dropped. -/
theorem groupedOps_all_equal (cs : List LineChange) (n : Nat)
    (h : ∀ c ∈ cs, isEqualChange c = true) : groupedOps cs n = [] := by
  rcases toRuns_all_equal cs h with h0 | ⟨run, hr⟩
  · simp [groupedOps, h0]
  · have hlen : ((run.drop (run.length - n)).take n).length ≤ 2 * n := by
      have := List.length_take_le n (run.drop (run.length - n))
      omega
    simp only [groupedOps, hr, trimFirstRun, trimLastRun, groupLoop]
    rw [if_neg (by omega)]
    rfl

/-- C8: for every text `x`, `generate_diff x x` followed by
`extract_hunks` yields the empty hunk list. -/
theorem c8_identical_inputs_yield_no_hunks (path x : String) :
    extract_hunks path (generate_diff x x) = [] := by
  unfold extract_hunks
  rw [groupedOps_all_equal _ _ (generate_diff_self_all_equal x)]
  rfl

/-! ## C3: the `start_line` of extracted hunks -/

/-- The last value of an option-valued fold is the last present value
(or the initial accumulator when none is present). -/
theorem foldl_option_update_getLast (g : LineChange → Option Nat) :
    ∀ (cs : List LineChange) (acc : Nat),
      cs.foldl (fun a c => match g c with | some i => i | none => a) acc =
        ((cs.filterMap g).getLast?).getD acc := by
  intro cs
  induction cs with
  | nil => intro acc; rfl
  | cons c cs ih =>
    intro acc
    cases hg : g c with
    | none => simp [List.foldl_cons, hg, ih, List.filterMap_cons, hg]
    | some i =>
      simp only [List.foldl_cons, hg, ih, List.filterMap_cons]
      cases hcs : cs.filterMap g with
      | nil => simp
      | cons y ys =>
        rcases hx : (y :: ys).getLast? with _ | v
        · simp at hx
        · simp [hx]

/-- Membership in the accumulating fold of `extract_hunks`. -/
theorem mem_extract_hunks_fold (f : Nat × List LineChange → Hunk) :
    ∀ (l : List (Nat × List LineChange)) (init : List Hunk) (h : Hunk),
      h ∈ l.foldl (fun acc p => if p.2.isEmpty then acc else acc ++ [f p]) init →
      h ∈ init ∨ ∃ p ∈ l, h = f p := by
  intro l
  induction l with
  | nil => intro init h hm; exact Or.inl hm
  | cons p l ih =>
    intro init h hm
    simp only [List.foldl_cons] at hm
    by_cases hp : p.2.isEmpty
    · rw [if_pos hp] at hm
      rcases ih init h hm with hi | ⟨q, hq, rfl⟩
      · exact Or.inl hi
      · exact Or.inr ⟨q, List.mem_cons_of_mem p hq, rfl⟩
    · rw [if_neg hp] at hm
      rcases ih (init ++ [f p]) h hm with hi | ⟨q, hq, rfl⟩
      · rcases List.mem_append.mp hi with hi | hi
        · exact Or.inl hi
        · exact Or.inr ⟨p, List.mem_cons_self p l, by simpa using hi⟩
      · exact Or.inr ⟨q, List.mem_cons_of_mem p hq, rfl⟩

/-- C3 (amended): for every hunk emitted by `extract_hunks`,
`start_line` is the 0-based `old_line_num` of the *last* change of the
hunk carrying one (0 when no change does), and `end_line` likewise for
`new_line_num` — not the smallest 1-based old line number. -/
theorem c3_start_line_last_old_index (path : String) (diff : List LineChange)
    (h : Hunk) (hm : h ∈ extract_hunks path diff) :
    h.start_line = ((h.changes.filterMap LineChange.old_line_num).getLast?).getD 0 ∧
    h.end_line = ((h.changes.filterMap LineChange.new_line_num).getLast?).getD 0 := by
  unfold extract_hunks at hm
  rcases mem_extract_hunks_fold _ _ _ _ hm with hi | ⟨p, _, rfl⟩
  · simp at hi
  · constructor
    · exact foldl_option_update_getLast LineChange.old_line_num p.2 0
    · exact foldl_option_update_getLast LineChange.new_line_num p.2 0

/-- C3 witness: the theorem applied to the hunk extracted from the diff
of `"a\nb"` against `"a\nB"`. -/
theorem c3_start_line_last_old_index_witness :
    (⟨0, "f", 1, 1,
      [⟨ChangeTag.Equal, "a\n", some 0, some 0⟩,
       ⟨ChangeTag.Delete, "b", some 1, none⟩,
       ⟨ChangeTag.Insert, "B", none, some 1⟩], HunkStatus.Pending⟩ : Hunk) ∈
        extract_hunks "f" (generate_diff "a\nb" "a\nB") ∧
    (⟨0, "f", 1, 1,
      [⟨ChangeTag.Equal, "a\n", some 0, some 0⟩,
       ⟨ChangeTag.Delete, "b", some 1, none⟩,
       ⟨ChangeTag.Insert, "B", none, some 1⟩] , HunkStatus.Pending⟩ : Hunk).start_line =
      (((⟨0, "f", 1, 1,
      [⟨ChangeTag.Equal, "a\n", some 0, some 0⟩,
       ⟨ChangeTag.Delete, "b", some 1, none⟩,
       ⟨ChangeTag.Insert, "B", none, some 1⟩], HunkStatus.Pending⟩ : Hunk).changes.filterMap
        LineChange.old_line_num).getLast?).getD 0 :=
  ⟨by decide,
   (c3_start_line_last_old_index "f" (generate_diff "a\nb" "a\nB") _ (by decide)).1⟩

/-- C3 counterexample: on the diff of `"a\nb"` against `"a\nB"` the
emitted hunk has `start_line = 1` while the smallest `old_line_num`
among its changes is 0 — the claim's equation fails. -/
theorem c3_counterexample :
    ((extract_hunks "f" (generate_diff "a\nb" "a\nB")).all
      (fun h => h.start_line == specSmallestOldLine h)) = false := by
  decide

/-! ## C1: the accept-all round trip -/

/-- C1 (code bug): on the spec's own scenario S1
(`original = "a\nb\nc"`, `proposed = "a\nB\nc"`), extracting hunks,
accepting all of them and reconstructing yields `"b\nB\n\nc"`, not the
proposed text — the round-trip invariant fails even up to trailing
newline normalization.  `extract_hunks` records 0-based indices while
`apply_hunk` interprets them as 1-based and inserts newline-bearing
contents. -/
theorem c1_roundtrip_fails_on_spec_scenario :
    reconstruct_file_content "a\nb\nc"
      (acceptAll (extract_hunks "f" (generate_diff "a\nb\nc" "a\nB\nc"))) =
      "b\nB\n\nc" ∧
    stripTrailingNewline "b\nB\n\nc" ≠ stripTrailingNewline "a\nB\nc" := by
  constructor
  · decide
  · decide

/-! ## C4: the insertion anchor of `apply_hunk` -/

/-- Inserting at `n ≤ l.length` splices the element in. -/
theorem insertIdx_eq_take_drop (a : String) :
    ∀ (n : Nat) (l : List String), n ≤ l.length →
      l.insertIdx n a = l.take n ++ a :: l.drop n := by
  intro n
  induction n with
  | zero => intro l _; simp [List.insertIdx_zero]
  | succ n ih =>
    intro l hl
    cases l with
    | nil => simp at hl
    | cons x xs =>
      simp only [List.insertIdx_succ_cons, List.take_succ_cons, List.drop_succ_cons,
        List.cons_append]
      rw [ih xs (by simpa using hl)]

/-- The enumerated insertion fold of `applyInsertions` splices the whole
insertion list at the anchor. -/
theorem foldl_insertIdx_splice :
    ∀ (ins : List String) (k : Nat) (l : List String) (pos : Nat), pos + k ≤ l.length →
      (List.enumFrom k ins).foldl (fun ls p => ls.insertIdx (pos + p.1) p.2) l =
        l.take (pos + k) ++ ins ++ l.drop (pos + k) := by
  intro ins
  induction ins with
  | nil => intro k l pos _; simp [List.take_append_drop]
  | cons a ins ih =>
    intro k l pos hkl
    simp only [List.enumFrom, List.foldl_cons]
    rw [insertIdx_eq_take_drop a (pos + k) l hkl]
    have hlen : pos + (k + 1) ≤ (l.take (pos + k) ++ a :: l.drop (pos + k)).length := by
      simp [List.length_take]
      omega
    rw [ih (k + 1) _ pos hlen]
    have htk : (l.take (pos + k) ++ a :: l.drop (pos + k)).take (pos + (k + 1)) =
        l.take (pos + k) ++ [a] := by
      rw [List.take_append_eq_append_take]
      have h1 : (l.take (pos + k)).length = pos + k := by
        rw [List.length_take]; omega
      rw [List.take_of_length_le (by omega), h1]
      have : pos + (k + 1) - (pos + k) = 1 := by omega
      rw [this]
      rfl
    have hdk : (l.take (pos + k) ++ a :: l.drop (pos + k)).drop (pos + (k + 1)) =
        l.drop (pos + k) := by
      rw [List.drop_append_eq_append_drop]
      have h1 : (l.take (pos + k)).length = pos + k := by
        rw [List.length_take]; omega
      rw [List.drop_of_length_le (by omega), h1]
      have : pos + (k + 1) - (pos + k) = 1 := by omega
      rw [this]
      rfl
    rw [htk, hdk]
    simp

/-- C4 (amended): `apply_hunk` inserts the hunk's insertion contents as
one spliced block: at `min (start_line - 1) length` of the
post-deletion lines when `start_line > 0`, and — contrary to the claim —
*appended at the end* when `start_line = 0` and the post-deletion lines
are non-empty (at index 0 only when they are empty). -/
theorem c4_insert_anchor (lines : List String) (hunk : Hunk) :
    apply_hunk lines hunk =
      (let lines' := applyDeletions lines (hunk.changes.filterMap
        (fun c => if c.tag = ChangeTag.Delete then some (c.old_line_num.getD 0) else none));
      let ins := hunk.changes.filterMap
        (fun c => if c.tag = ChangeTag.Insert then some c.content else none);
      let pos := if 0 < hunk.start_line then min (hunk.start_line - 1) lines'.length
        else if lines'.isEmpty then 0 else lines'.length;
      lines'.take pos ++ ins ++ lines'.drop pos) := by
  unfold apply_hunk applyInsertions
  dsimp only
  have henum : ∀ (ins l : List String) (pos : Nat), pos ≤ l.length →
      ins.enum.foldl (fun ls p => ls.insertIdx (pos + p.1) p.2) l =
        l.take pos ++ ins ++ l.drop pos := by
    intro ins l pos h
    have := foldl_insertIdx_splice ins 0 l pos (by omega)
    simpa [List.enum] using this
  set lines' := applyDeletions lines (hunk.changes.filterMap
    (fun c => if c.tag = ChangeTag.Delete then some (c.old_line_num.getD 0) else none))
    with hlines'
  set ins := hunk.changes.filterMap
    (fun c => if c.tag = ChangeTag.Insert then some c.content else none) with hins
  by_cases h0 : 0 < hunk.start_line
  · simp only [if_pos h0]
    exact henum ins lines' _ (by omega)
  · simp only [if_neg h0]
    by_cases he : lines'.isEmpty
    · simp only [if_pos he]
      have h0' : lines' = [] := by simpa using he
      rw [h0']
      simpa using henum ins [] (0 ⊓ ([] : List String).length) (by simp)
    · simp only [if_neg he, Nat.min_self]
      exact henum ins lines' _ (by omega)

/-- C4 counterexample: an accepted hunk with `start_line = 0` and one
insertion applied to the non-empty line list `["a"]` appends, yielding
`["a", "x"]` — not `["x", "a"]` as the claim's anchor
`max(0, start_line-1) = 0` would demand. -/
theorem c4_counterexample :
    apply_hunk ["a"]
      ⟨0, "f", 0, 0, [⟨ChangeTag.Insert, "x", none, some 0⟩], HunkStatus.Accepted⟩ =
      ["a", "x"] ∧
    apply_hunk ["a"]
      ⟨0, "f", 0, 0, [⟨ChangeTag.Insert, "x", none, some 0⟩], HunkStatus.Accepted⟩ ≠
      ["x", "a"] := by
  constructor
  · decide
  · decide

/-! ## C9: reconstruction with no accepted hunks -/

/-- C9 (amended): `reconstruct_file_content` returns the original
verbatim when the hunk list is empty; for a non-empty hunk list with no
`Accepted` hunk it returns the original's lines rejoined with `"\n"`,
which normalizes away a trailing newline and CRLF endings when the
original has them. -/
theorem c9_no_accepted_rejoins_lines (original : String) (hunks : List Hunk) :
    (hunks = [] → reconstruct_file_content original hunks = original) ∧
    (hunks ≠ [] → (∀ h ∈ hunks, h.status ≠ HunkStatus.Accepted) →
      reconstruct_file_content original hunks =
        String.intercalate "\n" (rustLines original)) := by
  constructor
  · intro h; subst h; rfl
  · intro hne hnot
    unfold reconstruct_file_content
    rw [if_neg (by simpa using hne)]
    have hfilter : hunks.filter (fun h => h.status = HunkStatus.Accepted) = [] := by
      apply List.filter_eq_nil_iff.mpr
      intro h hm
      simpa using hnot h hm
    rw [hfilter]
    rfl

/-- C9 witness: the theorem applied at `original = "a\r\nb\n"` with one
rejected hunk; the result drops the CR and the trailing newline and so
differs from the original byte-wise. -/
theorem c9_no_accepted_rejoins_lines_witness :
    reconstruct_file_content "a\r\nb\n" [⟨0, "f", 1, 1, [], HunkStatus.Rejected⟩] =
      String.intercalate "\n" (rustLines "a\r\nb\n") ∧
    String.intercalate "\n" (rustLines "a\r\nb\n") ≠ "a\r\nb\n" :=
  ⟨(c9_no_accepted_rejoins_lines "a\r\nb\n" _).2 (by decide) (by decide), by decide⟩

/-- C9 counterexample: with a non-empty hunk list (one rejected hunk)
on `original = "a"`, the result is byte-identical to the original even
though the hunk list is not empty, refuting "byte-identical only when
the hunk list is empty". -/
theorem c9_counterexample :
    reconstruct_file_content "a" [⟨0, "f", 1, 1, [], HunkStatus.Rejected⟩] = "a" ∧
    ([⟨0, "f", 1, 1, [], HunkStatus.Rejected⟩] : List Hunk) ≠ [] := by
  constructor
  · decide
  · decide

/-! ## C10: executor output normalization -/

/-- `splitChar` always yields at least one piece. -/
theorem splitChar_ne_nil (sep : Char) :
    ∀ (l acc : List Char), splitChar sep l acc ≠ [] := by
  intro l
  induction l with
  | nil => intro acc; simp [splitChar]
  | cons c cs ih =>
    intro acc
    by_cases hc : c = sep
    · simp [splitChar, hc]
    · simp only [splitChar, if_neg hc]
      exact ih (c :: acc)

/-- The captured stream, expressed over the split pieces: every piece
but the last is CR-stripped and newline-terminated; a non-empty last
piece gains a newline; an empty last piece vanishes. -/
def joinPieces : List (List Char) → List Char
  | [] => []
  | [last] => if last = [] then [] else last ++ ['\n']
  | piece :: rest => stripTrailingCR piece ++ '\n' :: joinPieces rest

/-- The reader loop equals the piece-wise description. -/
theorem captureLines_eq_joinPieces :
    ∀ (l cur : List Char), captureLines l cur = joinPieces (splitChar '\n' l cur) := by
  intro l
  induction l with
  | nil =>
    intro cur
    cases cur with
    | nil => rfl
    | cons c cs => simp [captureLines, splitChar, joinPieces]
  | cons c rest ih =>
    intro cur
    by_cases hc : c = '\n'
    · simp only [captureLines, splitChar, if_pos hc]
      rcases htail : splitChar '\n' rest [] with _ | ⟨t, ts⟩
      · exact absurd htail (splitChar_ne_nil '\n' rest [])
      · rw [ih []]
        rw [htail]
        rfl
    · simp only [captureLines, splitChar, if_neg hc]
      exact ih (c :: cur)

/-- The piece-wise description equals lines re-terminated with `\n`
and concatenated. -/
theorem joinPieces_eq_flatten :
    ∀ ps : List (List Char), ps ≠ [] →
      joinPieces ps =
        ((ps.dropLast.map stripTrailingCR ++
          (if ps.getLast?.getD [] = [] then [] else [ps.getLast?.getD []])).map
            (fun l => l ++ ['\n'])).flatten := by
  intro ps
  induction ps with
  | nil => intro h; exact absurd rfl h
  | cons x rest ih =>
    intro _
    cases rest with
    | nil =>
      by_cases hx : x = []
      · simp [joinPieces, hx]
      · simp [joinPieces, hx]
    | cons y ys =>
      have hne : (y :: ys : List (List Char)) ≠ [] := by simp
      simp only [joinPieces, ih hne, List.dropLast_cons₂, List.getLast?_cons_cons,
        List.map_cons, List.cons_append, List.flatten_cons]
      simp

/-- C10: for every executed subprocess, the captured stdout and stderr
are the process's raw output decoded line-by-line and rejoined with a
`\n` after each line (CRLF collapses to `\n`, an unterminated final
line gains a `\n`), so the captured bytes are not in general
byte-identical to what the process wrote. -/
theorem c10_output_rejoined_linewise (command : String) (args : List String)
    (context : List (String × String)) (proc : ProcessBehavior) :
    (execute_command command args context proc).stdout.toList =
      ((tokioLines proc.rawStdout.toList).map (fun l => l ++ ['\n'])).flatten ∧
    (execute_command command args context proc).stderr.toList =
      ((tokioLines proc.rawStderr.toList).map (fun l => l ++ ['\n'])).flatten ∧
    ∃ raw : String, capture_output raw ≠ raw := by
  refine ⟨?_, ?_, ⟨"a", by decide⟩⟩
  · show (captureLines proc.rawStdout.toList []) = _
    rw [captureLines_eq_joinPieces]
    exact joinPieces_eq_flatten _ (splitChar_ne_nil '\n' proc.rawStdout.toList [])
  · show (captureLines proc.rawStderr.toList []) = _
    rw [captureLines_eq_joinPieces]
    exact joinPieces_eq_flatten _ (splitChar_ne_nil '\n' proc.rawStderr.toList [])

/-! ## C5 and C6: the completion handler and the mode machine -/

/-- A result with no `provider_id` tag leaves the detection section
inert. -/
theorem handleDetection_no_pid (s : AppState) (result : CommandResult)
    (hpid : lookupPairs result.context "provider_id" = none) :
    handleDetection s result = s := by
  unfold handleDetection
  rw [hpid]

/-- The error path of the prompt section: a non-zero exit code yields
the error state, whatever the current mode. -/
theorem handlePromptExecution_nonzero (s : AppState) (result : CommandResult)
    (now : Nat) (c : Int)
    (hreq : lookupPairs result.context "request_type" = some "prompt_execution")
    (hexit : result.exit_code = some c) (hc : c ≠ 0) :
    handlePromptExecution s result now =
      { s with
        execution_state := ExecutionState.Idle,
        status_info := { s.status_info with is_working := false },
        chat_history :=
          { messages := s.chat_history.messages ++
              [{ id := s.chat_history.next_id, timestamp := now, is_user := false,
                 content := "Error: " ++ result.stderr, token_count := none, cost := none,
                 status := MessageStatus.Error, associated_files := [] }],
            next_id := s.chat_history.next_id + 1 },
        last_error := some ⟨"Provider Error",
          "Command failed (exit " ++ toString c ++ "): " ++ result.stderr, none⟩,
        mode := Mode.Error } := by
  unfold handlePromptExecution
  simp only [hreq, hexit, hc, if_false]
  rfl

/-- C5 (amended): a completion result tagged
`request_type=prompt_execution` is consumed regardless of the current
mode — the handler never inspects the mode.  For a non-zero exit code
it moves the application to `Error`, resets the execution state,
appends an error chat message and records the provider error, from
*any* starting mode. -/
theorem c5_prompt_completion_consumed_in_any_mode (s : AppState) (result : CommandResult)
    (now : Nat) (c : Int)
    (hpid : lookupPairs result.context "provider_id" = none)
    (hreq : lookupPairs result.context "request_type" = some "prompt_execution")
    (hexit : result.exit_code = some c) (hc : c ≠ 0) :
    (handle_command_result s result now).mode = Mode.Error ∧
    (handle_command_result s result now).execution_state = ExecutionState.Idle ∧
    (handle_command_result s result now).status_info.is_working = false ∧
    (handle_command_result s result now).chat_history.messages.length =
      s.chat_history.messages.length + 1 ∧
    (handle_command_result s result now).last_error = some ⟨"Provider Error",
      "Command failed (exit " ++ toString c ++ "): " ++ result.stderr, none⟩ := by
  unfold handle_command_result
  rw [handleDetection_no_pid s result hpid,
    handlePromptExecution_nonzero s result now c hreq hexit hc]
  refine ⟨rfl, rfl, rfl, ?_, rfl⟩
  simp

/-- A state fixture at a given mode for the handler scenarios. -/
def exStateAt (m : Mode) : AppState :=
  { mode := m, execution_state := ExecutionState.WaitingForResult,
    status_info := ⟨true⟩, chat_history := ⟨[], 1⟩, sessions := ⟨none, []⟩,
    pending_detections := [], available_providers := [],
    detection_state := DetectionState.Completed, provider := none,
    pending_changes := [], hunks := [], overlay_diff_state := ⟨[]⟩,
    last_error := none }

/-- C5 witness: the amended theorem applied in `DiffReview` mode to a
failed prompt execution. -/
theorem c5_prompt_completion_consumed_in_any_mode_witness :
    (handle_command_result (exStateAt Mode.DiffReview)
      (execute_provider_prompt "x" [] "p" ⟨some 1, "", "boom"⟩) 0).mode = Mode.Error ∧
    (handle_command_result (exStateAt Mode.DiffReview)
      (execute_provider_prompt "x" [] "p" ⟨some 1, "", "boom"⟩) 0).execution_state =
      ExecutionState.Idle ∧
    (handle_command_result (exStateAt Mode.DiffReview)
      (execute_provider_prompt "x" [] "p" ⟨some 1, "", "boom"⟩) 0).status_info.is_working =
      false ∧
    (handle_command_result (exStateAt Mode.DiffReview)
      (execute_provider_prompt "x" [] "p" ⟨some 1, "", "boom"⟩) 0).chat_history.messages.length =
      (exStateAt Mode.DiffReview).chat_history.messages.length + 1 ∧
    (handle_command_result (exStateAt Mode.DiffReview)
      (execute_provider_prompt "x" [] "p" ⟨some 1, "", "boom"⟩) 0).last_error = some
      ⟨"Provider Error", "Command failed (exit " ++ toString (1 : Int) ++ "): " ++
        capture_output "boom", none⟩ :=
  c5_prompt_completion_consumed_in_any_mode (exStateAt Mode.DiffReview)
    (execute_provider_prompt "x" [] "p" ⟨some 1, "", "boom"⟩) 0 1
    (by decide) (by decide) (by decide) (by decide)

/-- C5 counterexample: in mode `DiffReview` — not `Processing` — a
prompt-execution completion still changes the application state (mode
becomes `Error`, the chat history grows, the execution state resets),
refuting "changes application state only when the current mode is
Processing". -/
theorem c5_counterexample :
    (exStateAt Mode.DiffReview).mode = Mode.DiffReview ∧
    Mode.DiffReview ≠ Mode.Processing ∧
    (handle_command_result (exStateAt Mode.DiffReview)
      (execute_provider_prompt "x" [] "p" ⟨some 1, "", "boom"⟩) 0).mode = Mode.Error ∧
    (handle_command_result (exStateAt Mode.DiffReview)
      (execute_provider_prompt "x" [] "p" ⟨some 1, "", "boom"⟩) 0).chat_history.messages.length
      = 1 ∧
    (handle_command_result (exStateAt Mode.DiffReview)
      (execute_provider_prompt "x" [] "p" ⟨some 1, "", "boom"⟩) 0).execution_state =
      ExecutionState.Idle :=
  ⟨by rfl, by decide, by rfl, by rfl, by rfl⟩

/-- C6 (amended): a prompt-execution completion with no exit code
(subprocess terminated by a signal) only resets `execution_state` to
`Idle` and clears the working flag; no error is surfaced — mode, chat
history and `last_error` are all left unchanged. -/
theorem c6_signal_termination_silently_dropped (s : AppState) (result : CommandResult)
    (now : Nat)
    (hpid : lookupPairs result.context "provider_id" = none)
    (hreq : lookupPairs result.context "request_type" = some "prompt_execution")
    (hexit : result.exit_code = none) :
    handle_command_result s result now =
      { s with execution_state := ExecutionState.Idle,
               status_info := { s.status_info with is_working := false } } := by
  unfold handle_command_result
  rw [handleDetection_no_pid s result hpid]
  unfold handlePromptExecution
  simp only [hreq, hexit]
  rfl

/-- C6 witness: the amended theorem applied to a signal-terminated
prompt subprocess in `Processing` mode. -/
theorem c6_signal_termination_silently_dropped_witness :
    handle_command_result (exStateAt Mode.Processing)
      (execute_provider_prompt "claude" [] "claude" ⟨none, "", "killed"⟩) 0 =
      { exStateAt Mode.Processing with
        execution_state := ExecutionState.Idle,
        status_info := { (exStateAt Mode.Processing).status_info with is_working := false } } :=
  c6_signal_termination_silently_dropped (exStateAt Mode.Processing)
    (execute_provider_prompt "claude" [] "claude" ⟨none, "", "killed"⟩) 0
    (by decide) (by decide) (by decide)

/-- C6 counterexample: for a prompt subprocess killed by a signal
(absent exit code), the handler surfaces nothing: `last_error` stays
`none`, the mode stays `Processing`, the chat history stays empty —
the completion is dropped rather than treated as a
`ProviderExitNonZero` error shown to the user. -/
theorem c6_counterexample :
    (execute_provider_prompt "claude" [] "claude" ⟨none, "", "killed"⟩).exit_code = none ∧
    (handle_command_result (exStateAt Mode.Processing)
      (execute_provider_prompt "claude" [] "claude" ⟨none, "", "killed"⟩) 0).last_error =
      none ∧
    (handle_command_result (exStateAt Mode.Processing)
      (execute_provider_prompt "claude" [] "claude" ⟨none, "", "killed"⟩) 0).mode =
      Mode.Processing ∧
    (handle_command_result (exStateAt Mode.Processing)
      (execute_provider_prompt "claude" [] "claude" ⟨none, "", "killed"⟩) 0).chat_history.messages
      = [] :=
  ⟨by rfl, by rfl, by rfl, by rfl⟩

end ZCode
